import Mathlib

/-!
Verification of the archive-diff core (archive_diff.py, diff_data.py,
file_comparison.py): a shallow embedding of the listing records, the
ordered-merge diff engine, the common-prefix trie resolver, and the
diff-tree projection, together with theorems settling the specified
properties against this embedding.

Conventions of the embedding:
* Python dicts (insertion-ordered, string-keyed) are association lists;
  a fresh key is appended at the end, an existing key keeps its position.
* Python code that can raise returns `Except PyErr`; the error
  constructors mirror the built-in exception classes that can escape
  the translated functions.
* The external pieces (hashlib's registry and digest computation, the
  file system walked by the format handlers) enter as explicit
  parameters; everything else is translated from the source.
-/

/-- Python exception classes that the translated functions can raise. -/
inductive PyErr where
  | valueError
  | typeError
  | indexError
  deriving DecidableEq, Repr

/-- Association-list lookup: first entry with the given key
(Python `d[k]` / `k in d` on an insertion-ordered dict). -/
def lookupA {α : Type} : List (String × α) → String → Option α
  | [], _ => none
  | (k, v) :: rest, key => if k = key then some v else lookupA rest key

/-- Association-list store, Python `d[k] = v`: an existing key keeps its
position and gets the new value, a fresh key is appended at the end. -/
def setA {α : Type} : List (String × α) → String → α → List (String × α)
  | [], key, v => [(key, v)]
  | (k, w) :: rest, key, v =>
    if k = key then (k, v) :: rest else (k, w) :: setA rest key v

/-- Association-list in-place update of the value stored at `key`
(no effect when the key is absent). -/
def updateA {α : Type} : List (String × α) → String → (α → α) → List (String × α)
  | [], _, _ => []
  | (k, v) :: rest, key, f =>
    if k = key then (k, f v) :: rest else (k, v) :: updateA rest key f

/-- `HashRecord` of archive_diff.py: one archive entry, a digest
(`none` for a directory entry) and the normalized path segments.
`relpath` is derived by joining the segments with `/`. -/
structure HashRecord where
  hash : Option String
  path_parts : List String
  deriving DecidableEq, Repr

/-- Derived `relpath` property: segments joined with `/`. -/
def HashRecord.relpath (r : HashRecord) : String :=
  String.intercalate "/" r.path_parts

/-- Python `str.lower()` on a digest string, character by character. -/
def pyLower (s : String) : String :=
  ⟨s.data.map Char.toLower⟩

/-- The `HashRecord` constructor applied to a segment list: the digest is
lowercased (`hash.lower()`), the list is taken as the path segments. -/
def mkHashRecord (h : Option String) (parts : List String) : HashRecord :=
  ⟨h.map pyLower, parts⟩

/-- `DiffState` enumeration of diff_data.py. -/
inductive DiffState where
  | EQUAL
  | DIFFERENT
  | ONLY_LEFT
  | ONLY_RIGHT
  deriving DecidableEq, Repr

/-- `DiffRecord` of diff_data.py: one path with its diff state. -/
structure DiffRecord where
  relpath : String
  result : DiffState
  deriving DecidableEq, Repr

/-- `ArchiveDiff` of diff_data.py. -/
structure ArchiveDiff where
  prefix_left : String
  prefix_right : String
  records : List DiffRecord
  deriving DecidableEq, Repr

/-- `ArchiveDiff.stats`: the number of records per diff state (the Python
version returns a dict mapping every state to its count). -/
def ArchiveDiff.stats (ad : ArchiveDiff) (s : DiffState) : Nat :=
  (ad.records.map (fun r => r.result)).count s

/-- Python string `<` on the underlying characters: code-point
lexicographic, a strict sub-sequence compares below its extensions. -/
def pyLtChars : List Char → List Char → Bool
  | [], [] => false
  | [], _ :: _ => true
  | _ :: _, [] => false
  | c :: cs, d :: ds =>
    if c.toNat < d.toNat then true
    else if d.toNat < c.toNat then false
    else pyLtChars cs ds

/-- Python string `<`. -/
def pyLtString (a b : String) : Bool :=
  pyLtChars a.data b.data

/-- Python comparison of two `path_parts` lists (list-of-strings `<`):
elementwise by code points, first difference decides, a strict
sub-list compares below its extensions. -/
def pyLtList : List String → List String → Bool
  | [], [] => false
  | [], _ :: _ => true
  | _ :: _, [] => false
  | a :: as, b :: bs =>
    if pyLtString a b then true
    else if pyLtString b a then false
    else pyLtList as bs

/-- One step of a stable ascending insertion: `r` goes in front of the
first element that is not strictly below it, so elements with an equal
key keep their original relative order (as Python's stable `list.sort`). -/
def insertSorted (r : HashRecord) : List HashRecord → List HashRecord
  | [] => [r]
  | x :: xs =>
    if pyLtList x.path_parts r.path_parts then x :: insertSorted r xs
    else r :: x :: xs

/-- `listing.sort(key=lambda x: x.path_parts)`: stable ascending sort of
the records by their segment lists. -/
def pySortRecords : List HashRecord → List HashRecord
  | [] => []
  | r :: rest => insertSorted r (pySortRecords rest)

/-- Inner cursor loop of `compute_listing_diff` with the left listing
fixed at head `v1`: `rest` continues the merge for the left tail. -/
def mergeInner (v1 : HashRecord) (rest : List HashRecord → List DiffRecord) :
    List HashRecord → List DiffRecord
  | [] => ⟨v1.relpath, DiffState.ONLY_LEFT⟩ :: rest []
  | v2 :: t2 =>
    if v1.relpath = v2.relpath then
      ⟨v1.relpath, if v1.hash = v2.hash then DiffState.EQUAL else DiffState.DIFFERENT⟩
        :: rest t2
    else if pyLtString v1.relpath v2.relpath then
      ⟨v1.relpath, DiffState.ONLY_LEFT⟩ :: rest (v2 :: t2)
    else
      ⟨v2.relpath, DiffState.ONLY_RIGHT⟩ :: mergeInner v1 rest t2

/-- The cursor loops of `compute_listing_diff`: both listings are walked
in parallel comparing `relpath` strings; the left-over tail of either
side is drained as `ONLY_LEFT` / `ONLY_RIGHT`. -/
def mergeLists : List HashRecord → List HashRecord → List DiffRecord
  | [], l2 => l2.map fun v => ⟨v.relpath, DiffState.ONLY_RIGHT⟩
  | v1 :: t1, l2 => mergeInner v1 (mergeLists t1) l2

/-- `compute_listing_diff` of archive_diff.py: both argument lists are
sorted in place by `path_parts`, then merged by the cursor loops. -/
def compute_listing_diff (l1 l2 : List HashRecord) : List DiffRecord :=
  mergeLists (pySortRecords l1) (pySortRecords l2)

/-- `FileHasher` of file_comparison.py / archive_diff.py: the
constructor merely stores the algorithm name and the buffer size. -/
structure FileHasher where
  hash_algorithm : String
  hash_buffer_size : Nat
  deriving DecidableEq, Repr

/-- `FileHasher.__init__`: the constructor body is two attribute
assignments and contains no operation that can raise, so it is `pure`
in the `Except` monad; in particular it never consults the
hash-algorithm registry. -/
def FileHasher.init (alg : String) (buf : Nat) : Except PyErr FileHasher :=
  Except.ok ⟨alg, buf⟩

/-- `hashlib.new(name)`: resolves the algorithm name against the host
registry (passed in as the list of resolvable names) and raises
`ValueError` for an unresolvable name. The constructed digest state is
abstracted to `Unit`; only the success/failure behaviour is embedded. -/
def hlNew (registry : List String) (alg : String) : Except PyErr Unit :=
  if alg ∈ registry then Except.ok () else Except.error PyErr.valueError

/-- `FileHasher.compute_hash`: calls `hashlib.new` on the stored
algorithm name first, then consumes the stream and returns the hex
digest. The digest itself is external (hashlib); it enters as the
function `digestFn` from algorithm name and input bytes to hex string,
so only the control flow (where a bad name fails) is embedded. -/
def FileHasher.compute_hash (registry : List String)
    (digestFn : String → List Nat → String) (h : FileHasher)
    (data : List Nat) : Except PyErr String := do
  let _ ← hlNew registry h.hash_algorithm
  Except.ok (digestFn h.hash_algorithm data)

/-- Pure tail of `ArchiveDiffer.compute_hash_listing`: the records
yielded by the dispatched format handler (here passed in as a list,
since producing them reads the file system) are filtered so that only
records carrying a digest remain. -/
def compute_hash_listing (handlerOutput : List HashRecord) : List HashRecord :=
  handlerOutput.filter (fun x => x.hash.isSome)

/-- C1: `compute_listing_diff` sorts by `path_parts` (segment-wise) but
merges comparing joined `relpath` strings; the two orders disagree as
soon as a segment contains a character below `/` (code point 0x2F),
e.g. `.` (0x2E). For the listings L = [(h1,"foo/x"), (h2,"foo.txt")]
and R = [(h2,"foo.txt")] — distinct relpaths on each side — the merge
emits three records for a two-path union, reports the shared path
"foo.txt" twice (ONLY_RIGHT and ONLY_LEFT) instead of once as EQUAL,
and the output is not sorted by path. This theorem evaluates the code
at that failing input. -/
theorem compute_listing_diff_dup_path_eval :
    (([(⟨some "h1", ["foo", "x"]⟩ : HashRecord), ⟨some "h2", ["foo.txt"]⟩].map
        HashRecord.relpath).Nodup ∧
      ([(⟨some "h2", ["foo.txt"]⟩ : HashRecord)].map HashRecord.relpath).Nodup) ∧
    compute_listing_diff
      [⟨some "h1", ["foo", "x"]⟩, ⟨some "h2", ["foo.txt"]⟩]
      [⟨some "h2", ["foo.txt"]⟩] =
      [⟨"foo.txt", DiffState.ONLY_RIGHT⟩, ⟨"foo/x", DiffState.ONLY_LEFT⟩,
       ⟨"foo.txt", DiffState.ONLY_LEFT⟩] ∧
    ((compute_listing_diff
      [⟨some "h1", ["foo", "x"]⟩, ⟨some "h2", ["foo.txt"]⟩]
      [⟨some "h2", ["foo.txt"]⟩]).map DiffRecord.relpath).count "foo.txt" = 2 := by
  refine ⟨⟨?_, ?_⟩, by decide, by decide⟩ <;> decide

/-- C7: for a path present in both listings with a directory entry on
one side and a file entry on the other, the code only reports
DIFFERENT when the merge cursors meet on that path. Because the sort
key (`path_parts`) disagrees with the merge comparison (`relpath`),
the listings L = [(None,"foo.txt"), (h1,"foo/x")] and
R = [(h2,"foo.txt")] make the cursors miss: the directory/file pair at
"foo.txt" is reported as ONLY_RIGHT plus ONLY_LEFT and no DIFFERENT
record is produced. This theorem evaluates the code at that input. -/
theorem compute_listing_diff_dir_file_eval :
    compute_listing_diff
      [⟨none, ["foo.txt"]⟩, ⟨some "h1", ["foo", "x"]⟩]
      [⟨some "h2", ["foo.txt"]⟩] =
      [⟨"foo.txt", DiffState.ONLY_RIGHT⟩, ⟨"foo/x", DiffState.ONLY_LEFT⟩,
       ⟨"foo.txt", DiffState.ONLY_LEFT⟩] ∧
    (compute_listing_diff
      [⟨none, ["foo.txt"]⟩, ⟨some "h1", ["foo", "x"]⟩]
      [⟨some "h2", ["foo.txt"]⟩]).all
        (fun r => !(r.relpath == "foo.txt" && r.result == DiffState.DIFFERENT)) = true := by
  exact ⟨by decide, by decide⟩

/-- C3 counterexample: constructing a `FileHasher` with an algorithm
name the registry cannot resolve does not fail; the constructor
returns normally (the claim says construction raises). The name
"bogus-algo" is not in the example registry, yet `FileHasher.init`
succeeds. -/
theorem fileHasher_init_no_validation :
    FileHasher.init "bogus-algo" 131072 = Except.ok ⟨"bogus-algo", 131072⟩ ∧
    "bogus-algo" ∉ ["md5", "sha1", "sha256"] := by
  exact ⟨rfl, by decide⟩

/-- C3 amended: `FileHasher` construction always succeeds, storing the
name unchecked; an unresolvable algorithm name instead raises
`ValueError` at the first `compute_hash` call, when `hashlib.new` runs. -/
theorem fileHasher_fails_at_first_hash (alg : String) (buf : Nat)
    (registry : List String) (digestFn : String → List Nat → String)
    (data : List Nat) (h : alg ∉ registry) :
    FileHasher.init alg buf = Except.ok ⟨alg, buf⟩ ∧
    FileHasher.compute_hash registry digestFn ⟨alg, buf⟩ data =
      Except.error PyErr.valueError := by
  refine ⟨rfl, ?_⟩
  simp only [FileHasher.compute_hash, hlNew, if_neg h]
  rfl

/-- Witness for `fileHasher_fails_at_first_hash` at a concrete
unresolvable name and registry. -/
theorem fileHasher_fails_at_first_hash_witness :
    FileHasher.init "bogus-algo" 131072 = Except.ok ⟨"bogus-algo", 131072⟩ ∧
    FileHasher.compute_hash ["md5", "sha256"] (fun _ _ => "") ⟨"bogus-algo", 131072⟩ [] =
      Except.error PyErr.valueError :=
  fileHasher_fails_at_first_hash "bogus-algo" 131072 ["md5", "sha256"]
    (fun _ _ => "") [] (by decide)

/-- C9: every record returned by `compute_hash_listing` carries a
digest; the digest-less directory records yielded by the handler are
filtered out. -/
theorem compute_hash_listing_no_dirs (handlerOutput : List HashRecord)
    (r : HashRecord) (hr : r ∈ compute_hash_listing handlerOutput) :
    r.hash ≠ none := by
  have hmem := List.of_mem_filter hr
  intro hnone
  rw [hnone] at hmem
  simp at hmem

/-- Witness for `compute_hash_listing_no_dirs` on a listing mixing a
directory record and a file record. -/
theorem compute_hash_listing_no_dirs_witness :
    (⟨some "ab", ["root", "f"]⟩ : HashRecord) ∈
      compute_hash_listing [⟨none, ["root"]⟩, ⟨some "ab", ["root", "f"]⟩] ∧
    (⟨some "ab", ["root", "f"]⟩ : HashRecord).hash ≠ none :=
  ⟨by decide,
    compute_hash_listing_no_dirs [⟨none, ["root"]⟩, ⟨some "ab", ["root", "f"]⟩]
      ⟨some "ab", ["root", "f"]⟩ (by decide)⟩

/-- The prefix trie built by `find_common_prefix`: an insertion-ordered
dict from path segment to either the string marker `'__file__'`
(embedded as `none`) or a sub-dict (embedded as `some`). -/
inductive PTrie where
  | node : List (String × Option PTrie) → PTrie
  deriving Repr

/-- Entries of a trie node. -/
def PTrie.entries : PTrie → List (String × Option PTrie)
  | .node es => es

/-- Descent-and-mark of a file record in `find_common_prefix`:
walk `parts` (the path minus its last segment), creating empty dicts
for missing keys, then execute `tree[last] = '__file__'` guarded by
`try/except TypeError`. Reaching the `'__file__'` marker ends the walk
on a string: the final assignment then raises `TypeError`, caught and
converted to the dedicated `ValueError`; continuing the walk past a
marker indexes or assigns into a string, an uncaught `TypeError`. -/
def insFile : PTrie → List String → String → Except PyErr PTrie
  | .node es, [], last => Except.ok (.node (setA es last none))
  | .node es, p :: rest, last =>
    match lookupA es p with
    | none => do
      let sub ← insFile (.node []) rest last
      Except.ok (.node (setA es p (some sub)))
    | some (some sub) => do
      let sub' ← insFile sub rest last
      Except.ok (.node (setA es p (some sub')))
    | some none =>
      match rest with
      | [] => Except.error PyErr.valueError
      | _ :: _ => Except.error PyErr.typeError

/-- Descent of a directory record (digest `None`) in
`find_common_prefix`: walk the full path, creating empty dicts for
missing keys; no marker is written. Ending the walk exactly on a
`'__file__'` marker is silently accepted; walking past one raises an
uncaught `TypeError`. -/
def insDir : PTrie → List String → Except PyErr PTrie
  | t, [] => Except.ok t
  | .node es, p :: rest =>
    match lookupA es p with
    | none => do
      let sub ← insDir (.node []) rest
      Except.ok (.node (setA es p (some sub)))
    | some (some sub) => do
      let sub' ← insDir sub rest
      Except.ok (.node (setA es p (some sub')))
    | some none =>
      match rest with
      | [] => Except.ok (.node es)
      | _ :: _ => Except.error PyErr.typeError

/-- One iteration of the record loop of `find_common_prefix`: a file
record descends `path_parts[:-1]` and marks `path_parts[-1]` (an empty
path raises `IndexError` there); a directory record descends its full
path. -/
def insertRecord (t : PTrie) (r : HashRecord) : Except PyErr PTrie :=
  match r.hash with
  | none => insDir t r.path_parts
  | some _ =>
    match r.path_parts.getLast? with
    | none => Except.error PyErr.indexError
    | some last => insFile t r.path_parts.dropLast last

/-- The trie-construction loop of `find_common_prefix`. -/
def buildPrefixTrie (lst : List HashRecord) : Except PyErr PTrie :=
  lst.foldlM insertRecord (.node [])

/-- The descent loop of `find_common_prefix`: follow the trie while the
current dict has exactly one key whose value is again a dict,
collecting the keys. -/
def extractPrefix : PTrie → List String
  | .node [(k, some sub)] => k :: extractPrefix sub
  | _ => []

/-- `find_common_prefix` of archive_diff.py: build the prefix trie from
the records, then extract the single-child dict chain from the root. -/
def findCommonPrefix (lst : List HashRecord) : Except PyErr (List String) :=
  (buildPrefixTrie lst).map extractPrefix

/-- `strip_prefix_from_records` of archive_diff.py: detect the common
prefix, drop every record whose path is not longer than the prefix,
and remove the prefix segments from the front of the surviving
records' paths (rebuilding each through the `HashRecord` constructor). -/
def stripPrefixFromRecords (lst : List HashRecord) :
    Except PyErr (List String × List HashRecord) := do
  let pfx ← findCommonPrefix lst
  let kept := (lst.filter (fun r => decide (pfx.length < r.path_parts.length))).map
    (fun r => mkHashRecord r.hash (r.path_parts.drop pfx.length))
  Except.ok (pfx, kept)

example :
    findCommonPrefix
      [⟨none, ["root", "hello"]⟩, ⟨some "hash", ["root", "foo"]⟩,
       ⟨some "hash", ["root", "hello", "world"]⟩] = Except.ok ["root"] := rfl

example :
    findCommonPrefix
      [⟨none, ["root"]⟩, ⟨none, ["root", "hello"]⟩,
       ⟨some "hash", ["root", "hello", "world"]⟩, ⟨some "hash", ["root", "hello", "foo"]⟩,
       ⟨some "hash", ["root", "hello", "bar"]⟩] = Except.ok ["root", "hello"] := rfl

example :
    findCommonPrefix
      [⟨none, ["hello"]⟩, ⟨some "hash", ["hello", "world"]⟩,
       ⟨some "hash", ["root", "foo"]⟩, ⟨some "hash", ["root", "bar"]⟩] =
      Except.ok [] := rfl

example :
    findCommonPrefix
      [⟨none, ["root"]⟩, ⟨none, ["root", "hello"]⟩, ⟨none, ["root", "hello", "foo"]⟩,
       ⟨none, ["root", "hello", "bar"]⟩] = Except.ok ["root", "hello"] := rfl

example :
    stripPrefixFromRecords
      [⟨none, ["root"]⟩, ⟨none, ["root", "hello"]⟩,
       ⟨some "hash_2", ["root", "hello", "world"]⟩, ⟨some "hash_3", ["root", "foo"]⟩,
       ⟨some "hash_4", ["root", "bar"]⟩] =
      Except.ok (["root"],
        [⟨none, ["hello"]⟩, ⟨some "hash_2", ["hello", "world"]⟩,
         ⟨some "hash_3", ["foo"]⟩, ⟨some "hash_4", ["bar"]⟩]) := rfl

theorem exceptBind_ok {α β : Type} (a : α) (f : α → Except PyErr β) :
    (Except.ok a >>= f) = f a := rfl

theorem exceptBind_error {α β : Type} (e : PyErr) (f : α → Except PyErr β) :
    ((Except.error e : Except PyErr α) >>= f) = Except.error e := rfl

theorem exceptMap_ok {α β : Type} (f : α → β) (a : α) :
    Except.map f (Except.ok a : Except PyErr α) = Except.ok (f a) := rfl

theorem exceptMap_error {α β : Type} (f : α → β) (e : PyErr) :
    Except.map f (Except.error e : Except PyErr α) = Except.error e := rfl

/-- Chain trie of nested single-key dicts ending in an empty dict: the
shape produced by inserting one directory record into an empty trie. -/
def dirChain : List String → PTrie
  | [] => .node []
  | p :: rest => .node [(p, some (dirChain rest))]

/-- Chain trie of nested single-key dicts ending in a `'__file__'`
marker: the shape produced by inserting one file record into an empty
trie. -/
def fileChain : List String → String → PTrie
  | [], last => .node [(last, none)]
  | p :: rest, last => .node [(p, some (fileChain rest last))]

theorem insFile_empty (q : List String) (last : String) :
    insFile (.node []) q last = Except.ok (fileChain q last) := by
  induction q with
  | nil => rfl
  | cons p rest ih => simp [insFile, lookupA, ih, fileChain, setA, exceptBind_ok]

theorem insDir_empty (q : List String) :
    insDir (.node []) q = Except.ok (dirChain q) := by
  induction q with
  | nil => rfl
  | cons p rest ih => simp [insDir, lookupA, ih, dirChain, setA, exceptBind_ok]

theorem extractPrefix_fileChain (q : List String) (g : String) :
    extractPrefix (fileChain q g) = q := by
  induction q with
  | nil => rfl
  | cons p rest ih => simp [fileChain, extractPrefix, ih]

/-- Inserting a file record whose parent path is already marked as a
file: the descent ends on the `'__file__'` marker and the final
assignment raises `TypeError`, converted to the dedicated `ValueError`. -/
theorem insFile_into_fileChain (q : List String) (g f : String) :
    insFile (fileChain q g) (q ++ [g]) f = Except.error PyErr.valueError := by
  induction q with
  | nil => simp [fileChain, insFile, lookupA]
  | cons p rest ih => simp [fileChain, insFile, lookupA, ih, exceptBind_error]

/-- Inserting a file record at a path that already exists as an explicit
directory chain: the `'__file__'` assignment silently overwrites the
directory entry, no error is raised. -/
theorem insFile_into_dirChain (q : List String) (g : String) :
    insFile (dirChain (q ++ [g])) q g = Except.ok (fileChain q g) := by
  induction q with
  | nil => simp [dirChain, insFile, lookupA, setA, fileChain]
  | cons p rest ih => simp [dirChain, insFile, lookupA, ih, setA, fileChain, exceptBind_ok]

/-- C4 counterexample: a listing in which the path "a" is used first as
an explicit directory entry and then as a file. The claim says
`find_common_prefix` must raise the invalid-structure error; instead
the file assignment silently overwrites the directory entry and prefix
computation succeeds, returning the empty prefix. -/
theorem findCommonPrefix_dir_then_file_no_error :
    findCommonPrefix [⟨none, ["a"]⟩, ⟨some "h", ["a"]⟩] = Except.ok [] := rfl

/-- C4 amended: conflict detection is order-dependent. When a path is
first marked as a file and a later file record lies directly below it,
the descent ends on the `'__file__'` marker and `find_common_prefix`
raises the dedicated `ValueError`; but when an explicit directory
entry precedes a file record at the same path, the conflict is
silently resolved — the file overwrites the directory subtree and the
prefix is computed from the overwritten trie. -/
theorem findCommonPrefix_conflict_order (q : List String) (g f h1 h2 : String) :
    findCommonPrefix [⟨some h1, q ++ [g]⟩, ⟨some h2, q ++ [g, f]⟩] =
      Except.error PyErr.valueError ∧
    findCommonPrefix [⟨none, q ++ [g]⟩, ⟨some h1, q ++ [g]⟩] = Except.ok q := by
  have hlast : (q ++ [g]).getLast? = some g := by simp
  have hdrop : (q ++ [g]).dropLast = q := by simp
  constructor
  · have e1 : insertRecord (.node []) ⟨some h1, q ++ [g]⟩ = Except.ok (fileChain q g) := by
      simp [insertRecord, hlast, hdrop, insFile_empty]
    have hsplit : q ++ [g, f] = (q ++ [g]) ++ [f] := by simp
    have e2 : insertRecord (fileChain q g) ⟨some h2, q ++ [g, f]⟩ =
        Except.error PyErr.valueError := by
      simp only [insertRecord, hsplit]
      simp [insFile_into_fileChain]
    simp [findCommonPrefix, buildPrefixTrie, List.foldlM, e1, e2, exceptBind_ok, exceptBind_error, exceptMap_error]
  · have e1 : insertRecord (.node []) ⟨none, q ++ [g]⟩ = Except.ok (dirChain (q ++ [g])) := by
      simp [insertRecord, insDir_empty]
    have e2 : insertRecord (dirChain (q ++ [g])) ⟨some h1, q ++ [g]⟩ =
        Except.ok (fileChain q g) := by
      simp [insertRecord, hlast, hdrop, insFile_into_dirChain]
    simp [findCommonPrefix, buildPrefixTrie, List.foldlM, e1, e2, extractPrefix_fileChain, exceptBind_ok, exceptMap_ok]

/-- Follow a segment path through dict entries of the trie, returning
the subtrie reached (or `none` when an entry is missing or is the
`'__file__'` marker). -/
def chainTo : PTrie → List String → Option PTrie
  | t, [] => some t
  | t, p :: rest =>
    match lookupA t.entries p with
    | some (some sub) => chainTo sub rest
    | _ => none

/-- The trie is compatible with `P` being a single-child dict chain:
along `P`, every visited node has all its keys equal to the next
segment of `P`, and no entry on the chain is a `'__file__'` marker
(entries may be missing — the chain need not be complete yet). -/
def chainOK : PTrie → List String → Bool
  | _, [] => true
  | t, p :: rest =>
    t.entries.all (fun e => e.1 == p) &&
    match lookupA t.entries p with
    | none => true
    | some none => false
    | some (some sub) => chainOK sub rest

theorem lookupA_setA_self {α : Type} (es : List (String × α)) (k : String) (v : α) :
    lookupA (setA es k v) k = some v := by
  induction es with
  | nil => simp [setA, lookupA]
  | cons e rest ih =>
    obtain ⟨k', w⟩ := e
    by_cases h : k' = k
    · simp [setA, h, lookupA]
    · simp [setA, h, lookupA, ih]

theorem lookupA_setA_ne {α : Type} (es : List (String × α)) (k k' : String) (v : α)
    (h : k' ≠ k) : lookupA (setA es k v) k' = lookupA es k' := by
  have hk : k ≠ k' := fun hh => h hh.symm
  induction es with
  | nil => simp [setA, lookupA, hk]
  | cons e rest ih =>
    obtain ⟨k0, w⟩ := e
    by_cases h0 : k0 = k
    · subst h0
      simp [setA, lookupA, hk]
    · simp only [setA, if_neg h0, lookupA]
      by_cases h1 : k0 = k'
      · simp [h1]
      · simp [h1, ih]

theorem setA_lookup_self {α : Type} (es : List (String × α)) (k : String) (v : α)
    (h : lookupA es k = some v) : setA es k v = es := by
  induction es with
  | nil => simp [lookupA] at h
  | cons e rest ih =>
    obtain ⟨k0, w⟩ := e
    by_cases h0 : k0 = k
    · subst h0
      simp [lookupA] at h
      simp [setA, h]
    · simp [lookupA, h0] at h
      simp [setA, h0, ih h]

theorem setA_all_keys {α : Type} (es : List (String × α)) (k : String) (v : α)
    (p : String)
    (h : (setA es k v).all (fun e => e.1 == p) = true) :
    es.all (fun e => e.1 == p) = true ∧ k = p := by
  induction es with
  | nil =>
    rw [setA, List.all_cons] at h
    simp at h
    simp [h]
  | cons e rest ih =>
    obtain ⟨k0, w⟩ := e
    by_cases h0 : k0 = k
    · subst h0
      rw [setA, if_pos rfl, List.all_cons] at h
      simp only [Bool.and_eq_true, beq_iff_eq] at h
      obtain ⟨hkp, hrest⟩ := h
      rw [List.all_cons]
      simp [hkp, hrest]
    · rw [setA, if_neg h0, List.all_cons] at h
      simp only [Bool.and_eq_true, beq_iff_eq] at h
      obtain ⟨hkp, hrest⟩ := h
      obtain ⟨hr, hk⟩ := ih hrest
      rw [List.all_cons]
      simp [hkp, hr, hk]

/-- A successful file insertion cannot repair the chain property: if
the trie after the insertion is compatible with the chain `P`, the
trie before it already was. -/
theorem chainOK_insFile (parts : List String) :
    ∀ (last : String) (t t' : PTrie) (P : List String),
      insFile t parts last = Except.ok t' → chainOK t' P = true →
      chainOK t P = true := by
  induction parts with
  | nil =>
    intro last t t' P hins hok
    obtain ⟨es⟩ := t
    simp only [insFile] at hins
    injection hins with h'
    subst h'
    cases P with
    | nil => rfl
    | cons p P' =>
      exfalso
      rw [chainOK, Bool.and_eq_true] at hok
      obtain ⟨hall, hmatch⟩ := hok
      obtain ⟨-, hlp⟩ := setA_all_keys es last none p hall
      subst hlp
      rw [PTrie.entries, lookupA_setA_self] at hmatch
      simp at hmatch
  | cons p0 parts' ih =>
    intro last t t' P hins hok
    obtain ⟨es⟩ := t
    simp only [insFile] at hins
    cases hlook : lookupA es p0 with
    | none =>
      rw [hlook] at hins
      simp only [] at hins
      cases hsub : insFile (.node []) parts' last with
      | error e => rw [hsub] at hins; exact absurd hins (by simp [exceptBind_error])
      | ok sub =>
        rw [hsub, exceptBind_ok] at hins
        injection hins with h'
        subst h'
        cases P with
        | nil => rfl
        | cons p P' =>
          rw [chainOK, Bool.and_eq_true] at hok
          obtain ⟨hall, -⟩ := hok
          obtain ⟨hes, hp0⟩ := setA_all_keys es p0 (some sub) p hall
          subst hp0
          rw [chainOK, Bool.and_eq_true]
          refine ⟨hes, ?_⟩
          rw [PTrie.entries, hlook]
    | some val =>
      cases val with
      | none =>
        rw [hlook] at hins
        cases parts' with
        | nil => exact absurd hins (by simp)
        | cons a b => exact absurd hins (by simp)
      | some sub0 =>
        rw [hlook] at hins
        simp only [] at hins
        cases hsub : insFile sub0 parts' last with
        | error e => rw [hsub] at hins; exact absurd hins (by simp [exceptBind_error])
        | ok sub' =>
          rw [hsub, exceptBind_ok] at hins
          injection hins with h'
          subst h'
          cases P with
          | nil => rfl
          | cons p P' =>
            rw [chainOK, Bool.and_eq_true] at hok
            obtain ⟨hall, hmatch⟩ := hok
            obtain ⟨hes, hp0⟩ := setA_all_keys es p0 (some sub') p hall
            subst hp0
            rw [PTrie.entries, lookupA_setA_self] at hmatch
            simp only [] at hmatch
            rw [chainOK, Bool.and_eq_true]
            refine ⟨hes, ?_⟩
            rw [PTrie.entries, hlook]
            simp only []
            exact ih last sub0 sub' P' hsub hmatch

/-- A successful directory insertion cannot repair the chain property
either. -/
theorem chainOK_insDir (parts : List String) :
    ∀ (t t' : PTrie) (P : List String),
      insDir t parts = Except.ok t' → chainOK t' P = true →
      chainOK t P = true := by
  induction parts with
  | nil =>
    intro t t' P hins hok
    simp only [insDir] at hins
    injection hins with h'
    subst h'
    exact hok
  | cons p0 parts' ih =>
    intro t t' P hins hok
    obtain ⟨es⟩ := t
    simp only [insDir] at hins
    cases hlook : lookupA es p0 with
    | none =>
      rw [hlook] at hins
      simp only [] at hins
      cases hsub : insDir (.node []) parts' with
      | error e => rw [hsub] at hins; exact absurd hins (by simp [exceptBind_error])
      | ok sub =>
        rw [hsub, exceptBind_ok] at hins
        injection hins with h'
        subst h'
        cases P with
        | nil => rfl
        | cons p P' =>
          rw [chainOK, Bool.and_eq_true] at hok
          obtain ⟨hall, -⟩ := hok
          obtain ⟨hes, hp0⟩ := setA_all_keys es p0 (some sub) p hall
          subst hp0
          rw [chainOK, Bool.and_eq_true]
          refine ⟨hes, ?_⟩
          rw [PTrie.entries, hlook]
    | some val =>
      cases val with
      | none =>
        rw [hlook] at hins
        cases parts' with
        | nil =>
          simp only [] at hins
          injection hins with h'
          subst h'
          exact hok
        | cons a b => exact absurd hins (by simp)
      | some sub0 =>
        rw [hlook] at hins
        simp only [] at hins
        cases hsub : insDir sub0 parts' with
        | error e => rw [hsub] at hins; exact absurd hins (by simp [exceptBind_error])
        | ok sub' =>
          rw [hsub, exceptBind_ok] at hins
          injection hins with h'
          subst h'
          cases P with
          | nil => rfl
          | cons p P' =>
            rw [chainOK, Bool.and_eq_true] at hok
            obtain ⟨hall, hmatch⟩ := hok
            obtain ⟨hes, hp0⟩ := setA_all_keys es p0 (some sub') p hall
            subst hp0
            rw [PTrie.entries, lookupA_setA_self] at hmatch
            simp only [] at hmatch
            rw [chainOK, Bool.and_eq_true]
            refine ⟨hes, ?_⟩
            rw [PTrie.entries, hlook]
            simp only []
            exact ih sub0 sub' P' hsub hmatch

/-- One record loop iteration cannot repair the chain property. -/
theorem chainOK_insertRecord (t t' : PTrie) (r : HashRecord) (P : List String)
    (hins : insertRecord t r = Except.ok t') (hok : chainOK t' P = true) :
    chainOK t P = true := by
  rw [insertRecord] at hins
  cases hh : r.hash with
  | none =>
    rw [hh] at hins
    exact chainOK_insDir r.path_parts t t' P hins hok
  | some hv =>
    rw [hh] at hins
    cases hl : r.path_parts.getLast? with
    | none => rw [hl] at hins; exact absurd hins (by simp)
    | some last =>
      rw [hl] at hins
      exact chainOK_insFile r.path_parts.dropLast last t t' P hins hok

/-- Every intermediate state of a successful trie-construction fold is
compatible with any chain the final trie is compatible with. -/
theorem chainOK_fold (lst : List HashRecord) :
    ∀ (t T : PTrie) (P : List String),
      List.foldlM insertRecord t lst = Except.ok T → chainOK T P = true →
      chainOK t P = true := by
  induction lst with
  | nil =>
    intro t T P hfold hok
    simp only [List.foldlM_nil] at hfold
    injection hfold with h'
    subst h'
    exact hok
  | cons r lst' ih =>
    intro t T P hfold hok
    rw [List.foldlM_cons] at hfold
    cases hr : insertRecord t r with
    | error e => rw [hr] at hfold; exact absurd hfold (by simp [exceptBind_error])
    | ok t1 =>
      rw [hr, exceptBind_ok] at hfold
      exact chainOK_insertRecord t t1 r P hr (ih t1 T P hfold hok)

theorem lookupA_all_keys {α : Type} (es : List (String × α)) (k : String) (v : α)
    (p : String) (hl : lookupA es k = some v)
    (hall : es.all (fun e => e.1 == p) = true) : k = p := by
  induction es with
  | nil => simp [lookupA] at hl
  | cons e rest ih =>
    obtain ⟨k0, w⟩ := e
    rw [List.all_cons] at hall
    simp only [Bool.and_eq_true, beq_iff_eq] at hall
    obtain ⟨hk0, hrest⟩ := hall
    by_cases h0 : k0 = k
    · rw [← h0, hk0]
    · rw [lookupA, if_neg h0] at hl
      exact ih hl hrest

/-- A successful file insertion into a trie that afterwards is
compatible with the chain `P` can only have descended along `P`:
`P` is a prefix of the descent path. -/
theorem insFile_align (parts : List String) :
    ∀ (last : String) (t t' : PTrie) (P : List String),
      insFile t parts last = Except.ok t' → chainOK t' P = true →
      List.IsPrefix P parts := by
  induction parts with
  | nil =>
    intro last t t' P hins hok
    obtain ⟨es⟩ := t
    simp only [insFile] at hins
    injection hins with h'
    subst h'
    cases P with
    | nil => exact List.nil_prefix
    | cons p P' =>
      exfalso
      rw [chainOK, Bool.and_eq_true] at hok
      obtain ⟨hall, hmatch⟩ := hok
      obtain ⟨-, hlp⟩ := setA_all_keys es last none p hall
      subst hlp
      rw [PTrie.entries, lookupA_setA_self] at hmatch
      simp at hmatch
  | cons p0 parts' ih =>
    intro last t t' P hins hok
    cases P with
    | nil => exact List.nil_prefix
    | cons p P' =>
      obtain ⟨es⟩ := t
      simp only [insFile] at hins
      cases hlook : lookupA es p0 with
      | none =>
        rw [hlook] at hins
        simp only [] at hins
        cases hsub : insFile (.node []) parts' last with
        | error e => rw [hsub] at hins; exact absurd hins (by simp [exceptBind_error])
        | ok sub =>
          rw [hsub, exceptBind_ok] at hins
          injection hins with h'
          subst h'
          rw [chainOK, Bool.and_eq_true] at hok
          obtain ⟨hall, hmatch⟩ := hok
          obtain ⟨-, hp0⟩ := setA_all_keys es p0 (some sub) p hall
          subst hp0
          rw [PTrie.entries, lookupA_setA_self] at hmatch
          simp only [] at hmatch
          obtain ⟨tail, htail⟩ := ih last (.node []) sub P' hsub hmatch
          exact ⟨tail, by rw [← htail]; rfl⟩
      | some val =>
        cases val with
        | none =>
          rw [hlook] at hins
          cases parts' with
          | nil => exact absurd hins (by simp)
          | cons a b => exact absurd hins (by simp)
        | some sub0 =>
          rw [hlook] at hins
          simp only [] at hins
          cases hsub : insFile sub0 parts' last with
          | error e => rw [hsub] at hins; exact absurd hins (by simp [exceptBind_error])
          | ok sub' =>
            rw [hsub, exceptBind_ok] at hins
            injection hins with h'
            subst h'
            rw [chainOK, Bool.and_eq_true] at hok
            obtain ⟨hall, hmatch⟩ := hok
            obtain ⟨-, hp0⟩ := setA_all_keys es p0 (some sub') p hall
            subst hp0
            rw [PTrie.entries, lookupA_setA_self] at hmatch
            simp only [] at hmatch
            obtain ⟨tail, htail⟩ := ih last sub0 sub' P' hsub hmatch
            exact ⟨tail, by rw [← htail]; rfl⟩

/-- A successful directory insertion into a trie that afterwards is
compatible with the chain `P` descended along `P` as far as both go:
one of the two paths is a prefix of the other. -/
theorem insDir_align (parts : List String) :
    ∀ (t t' : PTrie) (P : List String),
      insDir t parts = Except.ok t' → chainOK t' P = true →
      List.IsPrefix parts P ∨ List.IsPrefix P parts := by
  induction parts with
  | nil => intro t t' P hins hok; exact Or.inl List.nil_prefix
  | cons p0 parts' ih =>
    intro t t' P hins hok
    cases P with
    | nil => exact Or.inr List.nil_prefix
    | cons p P' =>
      obtain ⟨es⟩ := t
      simp only [insDir] at hins
      cases hlook : lookupA es p0 with
      | none =>
        rw [hlook] at hins
        simp only [] at hins
        cases hsub : insDir (.node []) parts' with
        | error e => rw [hsub] at hins; exact absurd hins (by simp [exceptBind_error])
        | ok sub =>
          rw [hsub, exceptBind_ok] at hins
          injection hins with h'
          subst h'
          rw [chainOK, Bool.and_eq_true] at hok
          obtain ⟨hall, hmatch⟩ := hok
          obtain ⟨-, hp0⟩ := setA_all_keys es p0 (some sub) p hall
          subst hp0
          rw [PTrie.entries, lookupA_setA_self] at hmatch
          simp only [] at hmatch
          rcases ih (.node []) sub P' hsub hmatch with hpre | hpre
          · obtain ⟨tail, htail⟩ := hpre
            exact Or.inl ⟨tail, by rw [← htail]; rfl⟩
          · obtain ⟨tail, htail⟩ := hpre
            exact Or.inr ⟨tail, by rw [← htail]; rfl⟩
      | some val =>
        cases val with
        | none =>
          rw [hlook] at hins
          cases parts' with
          | nil =>
            simp only [] at hins
            injection hins with h'
            subst h'
            exfalso
            rw [chainOK, Bool.and_eq_true] at hok
            obtain ⟨hall, hmatch⟩ := hok
            rw [PTrie.entries] at hall hmatch
            have hp0 := lookupA_all_keys es p0 none p hlook hall
            subst hp0
            rw [hlook] at hmatch
            simp at hmatch
          | cons a b => exact absurd hins (by simp)
        | some sub0 =>
          rw [hlook] at hins
          simp only [] at hins
          cases hsub : insDir sub0 parts' with
          | error e => rw [hsub] at hins; exact absurd hins (by simp [exceptBind_error])
          | ok sub' =>
            rw [hsub, exceptBind_ok] at hins
            injection hins with h'
            subst h'
            rw [chainOK, Bool.and_eq_true] at hok
            obtain ⟨hall, hmatch⟩ := hok
            obtain ⟨-, hp0⟩ := setA_all_keys es p0 (some sub') p hall
            subst hp0
            rw [PTrie.entries, lookupA_setA_self] at hmatch
            simp only [] at hmatch
            rcases ih sub0 sub' P' hsub hmatch with hpre | hpre
            · obtain ⟨tail, htail⟩ := hpre
              exact Or.inl ⟨tail, by rw [← htail]; rfl⟩
            · obtain ⟨tail, htail⟩ := hpre
              exact Or.inr ⟨tail, by rw [← htail]; rfl⟩

theorem extractPrefix_cons (t : PTrie) (p : String) (P' : List String)
    (h : extractPrefix t = p :: P') :
    ∃ sub, t = PTrie.node [(p, some sub)] ∧ extractPrefix sub = P' := by
  obtain ⟨es⟩ := t
  cases es with
  | nil => simp [extractPrefix] at h
  | cons e es' =>
    obtain ⟨k, val⟩ := e
    cases es' with
    | nil =>
      cases val with
      | none => simp [extractPrefix] at h
      | some sub =>
        rw [extractPrefix] at h
        injection h with h1 h2
        subst h1
        exact ⟨sub, rfl, h2⟩
    | cons e2 es'' => simp [extractPrefix] at h

theorem extractPrefix_chainOK (P : List String) :
    ∀ (t : PTrie), extractPrefix t = P → chainOK t P = true := by
  induction P with
  | nil => intro t h; rfl
  | cons p P' ih =>
    intro t h
    obtain ⟨sub, ht, hsub⟩ := extractPrefix_cons t p P' h
    subst ht
    rw [chainOK, Bool.and_eq_true]
    constructor
    · simp [PTrie.entries]
    · rw [PTrie.entries, lookupA, if_pos rfl]
      simp only []
      exact ih sub hsub

theorem extractPrefix_chainTo (P : List String) :
    ∀ (t : PTrie), extractPrefix t = P →
      ∃ u, chainTo t P = some u ∧ extractPrefix u = [] := by
  induction P with
  | nil => intro t h; exact ⟨t, rfl, h⟩
  | cons p P' ih =>
    intro t h
    obtain ⟨sub, ht, hsub⟩ := extractPrefix_cons t p P' h
    subst ht
    obtain ⟨u, hu, hue⟩ := ih sub hsub
    refine ⟨u, ?_, hue⟩
    rw [chainTo, PTrie.entries, lookupA, if_pos rfl]
    exact hu

theorem chainTo_dirChain_append (X Y : List String) :
    chainTo (dirChain (X ++ Y)) X = some (dirChain Y) := by
  induction X with
  | nil => rfl
  | cons x X' ih =>
    rw [List.cons_append, dirChain, chainTo, PTrie.entries, lookupA, if_pos rfl]
    exact ih

theorem chainTo_fileChain_append (X Y : List String) (g : String) :
    chainTo (fileChain (X ++ Y) g) X = some (fileChain Y g) := by
  induction X with
  | nil => rfl
  | cons x X' ih =>
    rw [List.cons_append, fileChain, chainTo, PTrie.entries, lookupA, if_pos rfl]
    exact ih

theorem chainTo_dirChain_of_ne (X Y : List String) (hpre : List.IsPrefix X Y)
    (hne : X ≠ Y) : chainTo (dirChain X) Y = none := by
  induction X generalizing Y with
  | nil =>
    cases Y with
    | nil => exact absurd rfl hne
    | cons y Y' => rfl
  | cons x X' ih =>
    cases Y with
    | nil =>
      obtain ⟨tail, htail⟩ := hpre
      exact absurd htail (by simp)
    | cons y Y' =>
      obtain ⟨tail, htail⟩ := hpre
      injection htail with h1 h2
      subst h1
      rw [dirChain, chainTo, PTrie.entries, lookupA, if_pos rfl]
      simp only []
      exact ih Y' ⟨tail, h2⟩ (fun (hh : X' = Y') => hne (by rw [hh]))

/-- A directory insertion along a fully existing dict chain leaves the
trie unchanged. -/
theorem insDir_of_chainTo (q : List String) :
    ∀ (t u : PTrie), chainTo t q = some u → insDir t q = Except.ok t := by
  induction q with
  | nil => intro t u _; obtain ⟨es⟩ := t; rfl
  | cons p q' ih =>
    intro t u hchain
    obtain ⟨es⟩ := t
    rw [chainTo, PTrie.entries] at hchain
    cases hlook : lookupA es p with
    | none => rw [hlook] at hchain; simp at hchain
    | some val =>
      cases val with
      | none => rw [hlook] at hchain; simp at hchain
      | some sub =>
        rw [hlook] at hchain
        simp only [] at hchain
        simp only [insDir]
        rw [hlook]
        simp only []
        rw [ih sub u hchain, exceptBind_ok, setA_lookup_self es p (some sub) hlook]

/-- Inserting a directory record that lies on the chain (its path is a
prefix of `P`) either leaves the chain walk unchanged or completes the
chain with a fresh empty node. -/
theorem insDir_short (parts : List String) :
    ∀ (P : List String) (t t1 : PTrie), List.IsPrefix parts P → chainOK t P = true →
      insDir t parts = Except.ok t1 →
      chainTo t1 P = chainTo t P ∨
        (chainTo t P = none ∧ chainTo t1 P = some (PTrie.node [])) := by
  induction parts with
  | nil =>
    intro P t t1 _ _ hins
    simp only [insDir] at hins
    injection hins with h'
    subst h'
    exact Or.inl rfl
  | cons p0 parts' ih =>
    intro P t t1 hpre hok hins
    cases P with
    | nil =>
      obtain ⟨tl, htl⟩ := hpre
      exact absurd htl (by simp)
    | cons p P' =>
      obtain ⟨tl, htl⟩ := hpre
      injection htl with h1 h2
      subst h1
      have hpre' : List.IsPrefix parts' P' := ⟨tl, h2⟩
      obtain ⟨es⟩ := t
      rw [chainOK, Bool.and_eq_true] at hok
      obtain ⟨hall, hmatch⟩ := hok
      rw [PTrie.entries] at hall hmatch
      simp only [insDir] at hins
      cases hlook : lookupA es p0 with
      | none =>
        rw [hlook] at hins
        simp only [] at hins
        cases hsub : insDir (.node []) parts' with
        | error e => rw [hsub] at hins; exact absurd hins (by simp [exceptBind_error])
        | ok sub =>
          rw [hsub, exceptBind_ok] at hins
          injection hins with h'
          subst h'
          have hsubchain : sub = dirChain parts' := by
            rw [insDir_empty] at hsub
            injection hsub with hs
            exact hs.symm
          subst hsubchain
          have hafter : chainTo (PTrie.node (setA es p0 (some (dirChain parts'))))
              (p0 :: P') = chainTo (dirChain parts') P' := by
            rw [chainTo, PTrie.entries, lookupA_setA_self]
          have hbefore : chainTo (PTrie.node es) (p0 :: P') = none := by
            rw [chainTo, PTrie.entries, hlook]
          by_cases heq : parts' = P'
          · subst heq
            refine Or.inr ⟨hbefore, ?_⟩
            rw [hafter]
            have := chainTo_dirChain_append parts' []
            rw [List.append_nil] at this
            rw [this]
            rfl
          · refine Or.inl ?_
            rw [hafter, hbefore]
            exact chainTo_dirChain_of_ne parts' P' hpre' heq
      | some val =>
        cases val with
        | none =>
          exfalso
          rw [hlook] at hmatch
          simp at hmatch
        | some sub0 =>
          rw [hlook] at hins
          simp only [] at hins
          cases hsub : insDir sub0 parts' with
          | error e => rw [hsub] at hins; exact absurd hins (by simp [exceptBind_error])
          | ok sub1 =>
            rw [hsub, exceptBind_ok] at hins
            injection hins with h'
            subst h'
            rw [hlook] at hmatch
            simp only [] at hmatch
            have hafter : chainTo (PTrie.node (setA es p0 (some sub1)))
                (p0 :: P') = chainTo sub1 P' := by
              rw [chainTo, PTrie.entries, lookupA_setA_self]
            have hbefore : chainTo (PTrie.node es) (p0 :: P') = chainTo sub0 P' := by
              rw [chainTo, PTrie.entries, hlook]
            rcases ih P' sub0 sub1 hpre' hmatch hsub with hcase | hcase
            · exact Or.inl (by rw [hafter, hbefore, hcase])
            · exact Or.inr ⟨by rw [hbefore, hcase.1], by rw [hafter, hcase.2]⟩

/-- Inserting a directory record whose path extends the chain `P`:
after the insertion the chain is complete, and the node it reaches is
obtained by inserting the path's suffix into the node the chain
reached before (or into a fresh empty node when the chain was not yet
complete). -/
theorem insDir_long (P : List String) :
    ∀ (suffix : List String) (t t1 : PTrie), chainOK t P = true →
      insDir t (P ++ suffix) = Except.ok t1 →
      ∃ u1, chainTo t1 P = some u1 ∧
        ((∃ u, chainTo t P = some u ∧ insDir u suffix = Except.ok u1) ∨
         (chainTo t P = none ∧ insDir (.node []) suffix = Except.ok u1)) := by
  induction P with
  | nil =>
    intro suffix t t1 _ hins
    rw [List.nil_append] at hins
    exact ⟨t1, rfl, Or.inl ⟨t, rfl, hins⟩⟩
  | cons p P' ih =>
    intro suffix t t1 hok hins
    obtain ⟨es⟩ := t
    rw [chainOK, Bool.and_eq_true] at hok
    obtain ⟨hall, hmatch⟩ := hok
    rw [PTrie.entries] at hall hmatch
    rw [List.cons_append] at hins
    simp only [insDir] at hins
    cases hlook : lookupA es p with
    | none =>
      rw [hlook] at hins
      simp only [] at hins
      cases hsub : insDir (.node []) (P' ++ suffix) with
      | error e => rw [hsub] at hins; exact absurd hins (by simp [exceptBind_error])
      | ok sub =>
        rw [hsub, exceptBind_ok] at hins
        injection hins with h'
        subst h'
        have hsubchain : sub = dirChain (P' ++ suffix) := by
          rw [insDir_empty] at hsub
          injection hsub with hs
          exact hs.symm
        subst hsubchain
        refine ⟨dirChain suffix, ?_, Or.inr ⟨?_, insDir_empty suffix⟩⟩
        · rw [chainTo, PTrie.entries, lookupA_setA_self]
          simp only []
          exact chainTo_dirChain_append P' suffix
        · rw [chainTo, PTrie.entries, hlook]
    | some val =>
      cases val with
      | none =>
        exfalso
        rw [hlook] at hmatch
        simp at hmatch
      | some sub0 =>
        rw [hlook] at hins
        simp only [] at hins
        cases hsub : insDir sub0 (P' ++ suffix) with
        | error e => rw [hsub] at hins; exact absurd hins (by simp [exceptBind_error])
        | ok sub1 =>
          rw [hsub, exceptBind_ok] at hins
          injection hins with h'
          subst h'
          rw [hlook] at hmatch
          simp only [] at hmatch
          obtain ⟨u1, hc, hdisj⟩ := ih suffix sub0 sub1 hmatch hsub
          refine ⟨u1, ?_, ?_⟩
          · rw [chainTo, PTrie.entries, lookupA_setA_self]
            exact hc
          · have hbefore : chainTo (PTrie.node es) (p :: P') = chainTo sub0 P' := by
              rw [chainTo, PTrie.entries, hlook]
            rcases hdisj with ⟨u, hu, hins'⟩ | ⟨hnone, hins'⟩
            · exact Or.inl ⟨u, by rw [hbefore, hu], hins'⟩
            · exact Or.inr ⟨by rw [hbefore, hnone], hins'⟩

/-- Inserting a file record whose descent path extends the chain `P`:
the chain completes and the reached node is the suffix insertion into
the previously reached node (or into a fresh empty node). -/
theorem insFile_long (P : List String) :
    ∀ (suffix : List String) (last : String) (t t1 : PTrie), chainOK t P = true →
      insFile t (P ++ suffix) last = Except.ok t1 →
      ∃ u1, chainTo t1 P = some u1 ∧
        ((∃ u, chainTo t P = some u ∧ insFile u suffix last = Except.ok u1) ∨
         (chainTo t P = none ∧ insFile (.node []) suffix last = Except.ok u1)) := by
  induction P with
  | nil =>
    intro suffix last t t1 _ hins
    rw [List.nil_append] at hins
    exact ⟨t1, rfl, Or.inl ⟨t, rfl, hins⟩⟩
  | cons p P' ih =>
    intro suffix last t t1 hok hins
    obtain ⟨es⟩ := t
    rw [chainOK, Bool.and_eq_true] at hok
    obtain ⟨hall, hmatch⟩ := hok
    rw [PTrie.entries] at hall hmatch
    rw [List.cons_append] at hins
    simp only [insFile] at hins
    cases hlook : lookupA es p with
    | none =>
      rw [hlook] at hins
      simp only [] at hins
      cases hsub : insFile (.node []) (P' ++ suffix) last with
      | error e => rw [hsub] at hins; exact absurd hins (by simp [exceptBind_error])
      | ok sub =>
        rw [hsub, exceptBind_ok] at hins
        injection hins with h'
        subst h'
        have hsubchain : sub = fileChain (P' ++ suffix) last := by
          rw [insFile_empty] at hsub
          injection hsub with hs
          exact hs.symm
        subst hsubchain
        refine ⟨fileChain suffix last, ?_, Or.inr ⟨?_, insFile_empty suffix last⟩⟩
        · rw [chainTo, PTrie.entries, lookupA_setA_self]
          simp only []
          exact chainTo_fileChain_append P' suffix last
        · rw [chainTo, PTrie.entries, hlook]
    | some val =>
      cases val with
      | none =>
        exfalso
        rw [hlook] at hmatch
        simp at hmatch
      | some sub0 =>
        rw [hlook] at hins
        simp only [] at hins
        cases hsub : insFile sub0 (P' ++ suffix) last with
        | error e => rw [hsub] at hins; exact absurd hins (by simp [exceptBind_error])
        | ok sub1 =>
          rw [hsub, exceptBind_ok] at hins
          injection hins with h'
          subst h'
          rw [hlook] at hmatch
          simp only [] at hmatch
          obtain ⟨u1, hc, hdisj⟩ := ih suffix last sub0 sub1 hmatch hsub
          refine ⟨u1, ?_, ?_⟩
          · rw [chainTo, PTrie.entries, lookupA_setA_self]
            exact hc
          · have hbefore : chainTo (PTrie.node es) (p :: P') = chainTo sub0 P' := by
              rw [chainTo, PTrie.entries, hlook]
            rcases hdisj with ⟨u, hu, hins'⟩ | ⟨hnone, hins'⟩
            · exact Or.inl ⟨u, by rw [hbefore, hu], hins'⟩
            · exact Or.inr ⟨by rw [hbefore, hnone], hins'⟩

/-- The listing produced by the stripping loop, as a function of the
prefix length: records not longer than the prefix are dropped, the
rest lose their leading `n` segments. -/
def strippedList (n : Nat) (lst : List HashRecord) : List HashRecord :=
  (lst.filter (fun r => decide (n < r.path_parts.length))).map
    (fun r => mkHashRecord r.hash (r.path_parts.drop n))

theorem strippedList_cons_long (n : Nat) (r : HashRecord) (l : List HashRecord)
    (hlen : n < r.path_parts.length) :
    strippedList n (r :: l) =
      mkHashRecord r.hash (r.path_parts.drop n) :: strippedList n l := by
  simp [strippedList, List.filter_cons, hlen]

theorem strippedList_cons_short (n : Nat) (r : HashRecord) (l : List HashRecord)
    (hlen : ¬ n < r.path_parts.length) :
    strippedList n (r :: l) = strippedList n l := by
  simp [strippedList, List.filter_cons, hlen]

/-- Relation between a trie and its image under prefix stripping: the
stripped trie is the node reached by walking the prefix chain, or the
empty node while the chain does not yet exist. -/
def StripRel (P : List String) (t ts : PTrie) : Prop :=
  (chainTo t P = none ∧ ts = PTrie.node []) ∨
    (∃ u, chainTo t P = some u ∧ ts = u)

/-- Simulation: replaying the stripped records on an empty trie tracks
the subtrie of the full construction at the end of the prefix chain. -/
theorem sim_fold (P : List String) (lst : List HashRecord) :
    ∀ (t ts T : PTrie),
      List.foldlM insertRecord t lst = Except.ok T → chainOK T P = true →
      StripRel P t ts →
      ∃ Ts, List.foldlM insertRecord ts (strippedList P.length lst) = Except.ok Ts ∧
        StripRel P T Ts := by
  induction lst with
  | nil =>
    intro t ts T hfold hokT hrel
    simp only [List.foldlM_nil] at hfold
    injection hfold with h'
    subst h'
    exact ⟨ts, rfl, hrel⟩
  | cons r lst' ih =>
    intro t ts T hfold hokT hrel
    rw [List.foldlM_cons] at hfold
    cases hr : insertRecord t r with
    | error e => rw [hr] at hfold; exact absurd hfold (by simp [exceptBind_error])
    | ok t1 =>
      rw [hr, exceptBind_ok] at hfold
      have hok1 : chainOK t1 P = true := chainOK_fold lst' t1 T P hfold hokT
      have hok0 : chainOK t P = true := chainOK_insertRecord t t1 r P hr hok1
      rw [insertRecord] at hr
      cases hh : r.hash with
      | none =>
        rw [hh] at hr
        have halign := insDir_align r.path_parts t t1 P hr hok1
        by_cases hlen : P.length < r.path_parts.length
        · -- long directory record: it extends the prefix chain
          have hlong : List.IsPrefix P r.path_parts := by
            rcases halign with hpre | hpre
            · exact absurd (List.IsPrefix.length_le hpre) (by omega)
            · exact hpre
          obtain ⟨suffix, hsufeq⟩ := hlong
          have hdrop : r.path_parts.drop P.length = suffix := by
            rw [← hsufeq, List.drop_left]
          rw [← hsufeq] at hr
          obtain ⟨u1, hc1, hdisj⟩ := insDir_long P suffix t t1 hok0 hr
          have hstep : insertRecord ts (mkHashRecord r.hash (r.path_parts.drop P.length)) =
              Except.ok u1 := by
            rw [hh, hdrop]
            show insDir ts suffix = Except.ok u1
            rcases hrel with ⟨hnone, hts⟩ | ⟨u, hu, hts⟩
            · rcases hdisj with ⟨u, hu, -⟩ | ⟨-, hins'⟩
              · rw [hnone] at hu; exact absurd hu (by simp)
              · rw [hts]; exact hins'
            · rcases hdisj with ⟨u', hu', hins'⟩ | ⟨hnone', -⟩
              · rw [hu] at hu'
                injection hu' with huu
                rw [hts, huu]
                exact hins'
              · rw [hu] at hnone'; exact absurd hnone' (by simp)
          have hrel1 : StripRel P t1 u1 := Or.inr ⟨u1, hc1, rfl⟩
          obtain ⟨Ts, hfoldS, hrelT⟩ := ih t1 u1 T hfold hokT hrel1
          refine ⟨Ts, ?_, hrelT⟩
          rw [strippedList_cons_long P.length r lst' hlen, List.foldlM_cons, hstep,
            exceptBind_ok]
          exact hfoldS
        · -- short directory record: it lies on the prefix chain, dropped
          have hpre : List.IsPrefix r.path_parts P := by
            rcases halign with hpre | hpre
            · exact hpre
            · have hplen := List.IsPrefix.length_le hpre
              have heq : P = r.path_parts :=
                List.IsPrefix.eq_of_length hpre (by omega)
              rw [heq]
          have hrel1 : StripRel P t1 ts := by
            rcases insDir_short r.path_parts P t t1 hpre hok0 hr with hcase | ⟨hnone, hsome⟩
            · rcases hrel with ⟨hnone, hts⟩ | ⟨u, hu, hts⟩
              · exact Or.inl ⟨by rw [hcase, hnone], hts⟩
              · exact Or.inr ⟨u, by rw [hcase, hu], hts⟩
            · rcases hrel with ⟨-, hts⟩ | ⟨u, hu, -⟩
              · exact Or.inr ⟨PTrie.node [], hsome, hts⟩
              · rw [hu] at hnone; exact absurd hnone (by simp)
          obtain ⟨Ts, hfoldS, hrelT⟩ := ih t1 ts T hfold hokT hrel1
          refine ⟨Ts, ?_, hrelT⟩
          rw [strippedList_cons_short P.length r lst' hlen]
          exact hfoldS
      | some hv =>
        rw [hh] at hr
        cases hl : r.path_parts.getLast? with
        | none => rw [hl] at hr; exact absurd hr (by simp)
        | some last =>
          rw [hl] at hr
          have halign := insFile_align r.path_parts.dropLast last t t1 P hr hok1
          obtain ⟨suffix, hsufeq⟩ := halign
          have hne : r.path_parts ≠ [] := by
            intro hempty
            rw [hempty] at hl
            simp at hl
          have hparts : r.path_parts.dropLast ++ [last] = r.path_parts := by
            have h1 := List.dropLast_append_getLast hne
            have h2 : r.path_parts.getLast hne = last := by
              have h3 := List.getLast?_eq_getLast r.path_parts hne
              rw [h3] at hl
              injection hl
            rw [h2] at h1
            exact h1
          have hlen : P.length < r.path_parts.length := by
            have : r.path_parts.length = r.path_parts.dropLast.length + 1 := by
              rw [← hparts]
              simp
            rw [this, ← hsufeq]
            simp
            omega
          have hdrop : r.path_parts.drop P.length = suffix ++ [last] := by
            rw [← hparts, ← hsufeq, List.append_assoc, List.drop_left]
          rw [← hsufeq] at hr
          obtain ⟨u1, hc1, hdisj⟩ := insFile_long P suffix last t t1 hok0 hr
          have hstep : insertRecord ts (mkHashRecord r.hash (r.path_parts.drop P.length)) =
              Except.ok u1 := by
            rw [hh, hdrop]
            show insertRecord ts ⟨some (pyLower hv), suffix ++ [last]⟩ = Except.ok u1
            rw [insertRecord]
            simp only [List.getLast?_concat, List.dropLast_concat]
            rcases hrel with ⟨hnone, hts⟩ | ⟨u, hu, hts⟩
            · rcases hdisj with ⟨u, hu, -⟩ | ⟨-, hins'⟩
              · rw [hnone] at hu; exact absurd hu (by simp)
              · rw [hts]; exact hins'
            · rcases hdisj with ⟨u', hu', hins'⟩ | ⟨hnone', -⟩
              · rw [hu] at hu'
                injection hu' with huu
                rw [hts, huu]
                exact hins'
              · rw [hu] at hnone'; exact absurd hnone' (by simp)
          have hrel1 : StripRel P t1 u1 := Or.inr ⟨u1, hc1, rfl⟩
          obtain ⟨Ts, hfoldS, hrelT⟩ := ih t1 u1 T hfold hokT hrel1
          refine ⟨Ts, ?_, hrelT⟩
          rw [strippedList_cons_long P.length r lst' hlen, List.foldlM_cons, hstep,
            exceptBind_ok]
          exact hfoldS

theorem strippedList_def (n : Nat) (lst : List HashRecord) :
    (lst.filter (fun r => decide (n < r.path_parts.length))).map
      (fun r => mkHashRecord r.hash (r.path_parts.drop n)) = strippedList n lst := rfl

/-- Every record of a successfully built listing is aligned with any
chain the final trie is compatible with: a directory record's path and
the chain are prefix-comparable, and a file record's descent path
(its path minus the last segment) extends the chain. -/
theorem align_fold (P : List String) (lst : List HashRecord) :
    ∀ (t T : PTrie), List.foldlM insertRecord t lst = Except.ok T →
      chainOK T P = true →
      ∀ r ∈ lst,
        (r.hash = none →
          List.IsPrefix r.path_parts P ∨ List.IsPrefix P r.path_parts) ∧
        (∀ hv, r.hash = some hv →
          r.path_parts ≠ [] ∧ List.IsPrefix P r.path_parts.dropLast) := by
  induction lst with
  | nil => intro t T _ _ r hr; exact absurd hr (by simp)
  | cons r0 lst' ih =>
    intro t T hfold hokT r hr
    rw [List.foldlM_cons] at hfold
    cases hr0 : insertRecord t r0 with
    | error e => rw [hr0] at hfold; exact absurd hfold (by simp [exceptBind_error])
    | ok t1 =>
      rw [hr0, exceptBind_ok] at hfold
      rcases List.mem_cons.mp hr with heq | hmem
      · subst heq
        have hok1 : chainOK t1 P = true := chainOK_fold lst' t1 T P hfold hokT
        rw [insertRecord] at hr0
        constructor
        · intro hh
          rw [hh] at hr0
          exact insDir_align r.path_parts t t1 P hr0 hok1
        · intro hv hh
          rw [hh] at hr0
          cases hl : r.path_parts.getLast? with
          | none => rw [hl] at hr0; exact absurd hr0 (by simp)
          | some last =>
            rw [hl] at hr0
            refine ⟨?_, insFile_align r.path_parts.dropLast last t t1 P hr0 hok1⟩
            intro hempty
            rw [hempty] at hl
            simp at hl
      · exact ih t1 T hfold hokT r hmem

/-- C5: stripping the detected common prefix from a listing and
re-running prefix detection on the stripped listing yields the empty
prefix. -/
theorem strip_then_find_yields_empty (lst : List HashRecord) (P : List String)
    (out : List HashRecord)
    (h : stripPrefixFromRecords lst = Except.ok (P, out)) :
    findCommonPrefix out = Except.ok [] := by
  rw [stripPrefixFromRecords] at h
  cases hfc : findCommonPrefix lst with
  | error e => rw [hfc] at h; exact absurd h (by simp [exceptBind_error])
  | ok P0 =>
    rw [hfc, exceptBind_ok, strippedList_def] at h
    injection h with h'
    rw [Prod.mk.injEq] at h'
    obtain ⟨hP, hout⟩ := h'
    subst hout
    rw [findCommonPrefix] at hfc
    cases hbuild : buildPrefixTrie lst with
    | error e => rw [hbuild] at hfc; exact absurd hfc (by simp [exceptMap_error])
    | ok T =>
      rw [hbuild, exceptMap_ok] at hfc
      injection hfc with hext
      have hokT : chainOK T P0 = true := extractPrefix_chainOK P0 T hext
      obtain ⟨U, hU, hUe⟩ := extractPrefix_chainTo P0 T hext
      rw [buildPrefixTrie] at hbuild
      have hrel0 : StripRel P0 (PTrie.node []) (PTrie.node []) := by
        cases P0 with
        | nil => exact Or.inr ⟨PTrie.node [], rfl, rfl⟩
        | cons p P' => exact Or.inl ⟨rfl, rfl⟩
      obtain ⟨Ts, hfoldS, hrelT⟩ :=
        sim_fold P0 lst (PTrie.node []) (PTrie.node []) T hbuild hokT hrel0
      have hTs : Ts = U := by
        rcases hrelT with ⟨hnone, -⟩ | ⟨u, hu, hts⟩
        · rw [hU] at hnone; exact absurd hnone (by simp)
        · rw [hU] at hu
          injection hu with huu
          rw [hts, huu]
      rw [findCommonPrefix, buildPrefixTrie, hfoldS, exceptMap_ok, hTs, hUe]

/-- Witness for `strip_then_find_yields_empty` on a concrete listing
with prefix `root`. -/
theorem strip_then_find_yields_empty_witness :
    findCommonPrefix [⟨some "h", ["f"]⟩] = Except.ok [] :=
  strip_then_find_yields_empty
    [⟨none, ["root"]⟩, ⟨some "h", ["root", "f"]⟩]
    ["root"] [⟨some "h", ["f"]⟩] rfl

/-- C6: prefix-strip round-trip. The output listing is exactly the
input records longer than the prefix with the prefix segments removed;
prepending the prefix to a surviving record's stripped path restores
its original path; and the dropped records (those whose path is not
longer than the prefix) are all digest-less directory entries lying on
the prefix chain itself — no file record is dropped. -/
theorem strip_roundtrip (lst : List HashRecord) (P : List String)
    (out : List HashRecord)
    (h : stripPrefixFromRecords lst = Except.ok (P, out)) :
    out = strippedList P.length lst ∧
    (∀ r ∈ lst, P.length < r.path_parts.length →
      P ++ r.path_parts.drop P.length = r.path_parts) ∧
    (∀ r ∈ lst, r.path_parts.length ≤ P.length →
      r.hash = none ∧ r.path_parts = P.take r.path_parts.length) := by
  rw [stripPrefixFromRecords] at h
  cases hfc : findCommonPrefix lst with
  | error e => rw [hfc] at h; exact absurd h (by simp [exceptBind_error])
  | ok P0 =>
    rw [hfc, exceptBind_ok, strippedList_def] at h
    injection h with h'
    rw [Prod.mk.injEq] at h'
    obtain ⟨hP, hout⟩ := h'
    rw [← hP]
    refine ⟨hout.symm, ?_⟩
    rw [findCommonPrefix] at hfc
    cases hbuild : buildPrefixTrie lst with
    | error e => rw [hbuild] at hfc; exact absurd hfc (by simp [exceptMap_error])
    | ok T =>
      rw [hbuild, exceptMap_ok] at hfc
      injection hfc with hext
      have hokT : chainOK T P0 = true := extractPrefix_chainOK P0 T hext
      rw [buildPrefixTrie] at hbuild
      have halign := align_fold P0 lst (PTrie.node []) T hbuild hokT
      constructor
      · intro r hr hlen
        have hPr : List.IsPrefix P0 r.path_parts := by
          cases hh : r.hash with
          | none =>
            rcases (halign r hr).1 hh with hpre | hpre
            · exact absurd (List.IsPrefix.length_le hpre) (by omega)
            · exact hpre
          | some hv =>
            obtain ⟨-, hpre⟩ := (halign r hr).2 hv hh
            exact hpre.trans (List.dropLast_prefix r.path_parts)
        obtain ⟨tail, htail⟩ := hPr
        rw [← htail, List.drop_left]
      · intro r hr hlen
        cases hh : r.hash with
        | none =>
          have hpre : List.IsPrefix r.path_parts P0 := by
            rcases (halign r hr).1 hh with hpre | hpre
            · exact hpre
            · have := List.IsPrefix.length_le hpre
              have heq : P0 = r.path_parts :=
                List.IsPrefix.eq_of_length hpre (by omega)
              rw [heq]
          exact ⟨rfl, (List.prefix_iff_eq_take).mp hpre⟩
        | some hv =>
          exfalso
          obtain ⟨hne, hpre⟩ := (halign r hr).2 hv hh
          have h1 : r.path_parts.length = r.path_parts.dropLast.length + 1 := by
            rw [List.length_dropLast]
            have : 0 < r.path_parts.length := List.length_pos.mpr hne
            omega
          have h2 := List.IsPrefix.length_le hpre
          omega

/-- Witness for `strip_roundtrip` on a concrete listing with prefix
`base`, one surviving file record and one dropped directory record. -/
theorem strip_roundtrip_witness :
    [⟨some "a", ["x"]⟩] =
        strippedList 1 [(⟨none, ["base"]⟩ : HashRecord), ⟨some "A", ["base", "x"]⟩] ∧
      ["base"] ++ (["base", "x"].drop 1) = ["base", "x"] ∧
      ((⟨none, ["base"]⟩ : HashRecord).hash = none ∧
        ["base"] = ["base"].take 1) := by
  have h := strip_roundtrip [⟨none, ["base"]⟩, ⟨some "A", ["base", "x"]⟩]
    ["base"] [⟨some "a", ["x"]⟩] rfl
  refine ⟨h.1, ?_, ?_⟩
  · exact h.2.1 ⟨some "A", ["base", "x"]⟩ (by simp) (by decide)
  · exact h.2.2 ⟨none, ["base"]⟩ (by simp) (by decide)

/-- Python `relpath.split('/')` on the underlying characters: split at
every `/`, keeping empty pieces (`''.split('/') == ['']`). -/
def pySplitSlashAux : List Char → List Char → List String
  | [], acc => [⟨acc.reverse⟩]
  | c :: cs, acc =>
    if c = '/' then ⟨acc.reverse⟩ :: pySplitSlashAux cs []
    else pySplitSlashAux cs (c :: acc)

/-- Python `s.split('/')`. -/
def pySplitSlash (s : String) : List String :=
  pySplitSlashAux s.data []

/-- Node of the intermediate dict tree of `build_diff_tree`: file
leaves (name and diff state, in append order) and an
insertion-ordered dict of sub-nodes. -/
inductive DictNode where
  | mk : List (String × DiffState) → List (String × DictNode) → DictNode

/-- File leaves of a dict-tree node. -/
def DictNode.files : DictNode → List (String × DiffState)
  | .mk fs _ => fs

/-- Sub-dict entries of a dict-tree node. -/
def DictNode.dirs : DictNode → List (String × DictNode)
  | .mk _ ds => ds

/-- One iteration of the descent loop body of `build_diff_tree`:
`d = archive_root.dirs[part]`, creating the entry when missing. Note
the lookup and the store both target `archive_root` — the root dict —
not the node reached so far; this is the source's own behaviour. -/
def ensureDir (r : DictNode) (p : String) : DictNode :=
  match r with
  | .mk fs ds =>
    match lookupA ds p with
    | some _ => .mk fs ds
    | none => .mk fs (ds ++ [(p, .mk [] [])])

/-- `d.files.append(DiffTreeFileNode(file_name, state))` on a dict-tree
node. -/
def addLeaf (fname : String) (st : DiffState) (dn : DictNode) : DictNode :=
  match dn with
  | .mk f2 d2 => .mk (f2 ++ [(fname, st)]) d2

/-- Append a file leaf to the sub-node stored under `key` of the root
dict (the node the loop variable `d` refers to after the loop). -/
def addFileAt (r : DictNode) (key fname : String) (st : DiffState) : DictNode :=
  match r with
  | .mk fs ds => .mk fs (updateA ds key (addLeaf fname st))

/-- One record insertion of `build_diff_tree`: split the `relpath` on
`/`; for every non-final segment look up (or create) an entry in the
ROOT's dict — the loop always indexes `archive_root.dirs`, so nested
directories are flattened to root level; the file leaf is appended to
the node of the last non-final segment (or to the root for a
single-segment path). -/
def insertDiffRecord (root : DictNode) (rec : DiffRecord) : DictNode :=
  let parts := pySplitSlash rec.relpath
  let fname := parts.getLastD ""
  match parts.dropLast with
  | [] =>
    match root with
    | .mk fs ds => .mk (fs ++ [(fname, rec.result)]) ds
  | d0 :: drest =>
    let root1 := (d0 :: drest).foldl ensureDir root
    addFileAt root1 ((d0 :: drest).getLastD "") fname rec.result

/-- `DiffTreeNode` of diff_data.py: directory nodes carry their
children (converted subdirectories first, then file leaves), file
nodes carry their diff state. -/
inductive DiffTreeNode where
  | dir : String → List DiffTreeNode → DiffTreeNode
  | file : String → DiffState → DiffTreeNode
  deriving Repr

mutual

/-- `to_tree_node` of `build_diff_tree`: convert a dict-tree node,
children are the converted sub-dicts in insertion order followed by
the file leaves in append order. -/
def toTreeNode (name : String) : DictNode → DiffTreeNode
  | .mk fs ds => .dir name (toTreeChildren ds ++ fs.map (fun p => DiffTreeNode.file p.1 p.2))

/-- Conversion of the sub-dict entries, in order. -/
def toTreeChildren : List (String × DictNode) → List DiffTreeNode
  | [] => []
  | (k, v) :: rest => toTreeNode k v :: toTreeChildren rest

end

/-- `build_diff_tree` of diff_data.py: insert every record into the
intermediate dict tree, then convert, naming the root `.`. -/
def build_diff_tree (ad : ArchiveDiff) : DiffTreeNode :=
  toTreeNode "." (ad.records.foldl insertDiffRecord (.mk [] []))

mutual

/-- `check_equality` of `DiffTreeDirNode.__init__`, applied recursively:
the derived `all_equal` value of a directory node, and the equality
check of a file node. -/
def checkEquality : DiffTreeNode → Bool
  | .file _ s => s == DiffState.EQUAL
  | .dir _ cs => checkAll cs

/-- `all(check_equality(node) for node in children)`. -/
def checkAll : List DiffTreeNode → Bool
  | [] => true
  | c :: rest => checkEquality c && checkAll rest

end

mutual

/-- Diff states of all file-node descendants of a tree node, in
left-to-right order. -/
def fileStates : DiffTreeNode → List DiffState
  | .file _ s => [s]
  | .dir _ cs => fileStatesList cs

/-- Concatenated file states of a list of nodes. -/
def fileStatesList : List DiffTreeNode → List DiffState
  | [] => []
  | c :: rest => fileStates c ++ fileStatesList rest

end

mutual

/-- Diff states stored in a dict-tree node, in conversion order
(sub-dicts first, then own file leaves). -/
def dictStates : DictNode → List DiffState
  | .mk fs ds => dictStatesList ds ++ fs.map (fun p => p.2)

/-- Concatenated states of the sub-dict entries. -/
def dictStatesList : List (String × DictNode) → List DiffState
  | [] => []
  | (_, v) :: rest => dictStates v ++ dictStatesList rest

end

/-- Number of occurrences of a diff state in a list. -/
def stateCount (s : DiffState) : List DiffState → Nat
  | [] => 0
  | x :: xs => (if x = s then 1 else 0) + stateCount s xs

/-- Reflexive-transitive reachability of a subtree inside a diff tree
(descending through directory children). -/
inductive SubtreeOf : DiffTreeNode → DiffTreeNode → Prop where
  | refl (t : DiffTreeNode) : SubtreeOf t t
  | child {s c : DiffTreeNode} {nm : String} {cs : List DiffTreeNode} :
      c ∈ cs → SubtreeOf s c → SubtreeOf s (.dir nm cs)

example :
    build_diff_tree ⟨"", "", [⟨"a/b/f", DiffState.EQUAL⟩]⟩ =
      DiffTreeNode.dir "." [DiffTreeNode.dir "a" [],
        DiffTreeNode.dir "b" [DiffTreeNode.file "f" DiffState.EQUAL]] := rfl

/-- C2: the descent loop of `build_diff_tree` indexes
`archive_root.dirs` instead of the current node's dict, so nested
directories are flattened to root level. For the single record
"a/b/f" the claim requires the file node `f` to sit under the chain
root → a → b; the code instead produces the directory `a` as an empty
root child and the file under a root-level directory `b`. This theorem
evaluates the code at that input and shows the nested shape is not
produced. -/
theorem build_diff_tree_flattens_eval :
    build_diff_tree ⟨"", "", [⟨"a/b/f", DiffState.EQUAL⟩]⟩ =
      DiffTreeNode.dir "." [DiffTreeNode.dir "a" [],
        DiffTreeNode.dir "b" [DiffTreeNode.file "f" DiffState.EQUAL]] ∧
    build_diff_tree ⟨"", "", [⟨"a/b/f", DiffState.EQUAL⟩]⟩ ≠
      DiffTreeNode.dir "." [DiffTreeNode.dir "a"
        [DiffTreeNode.dir "b" [DiffTreeNode.file "f" DiffState.EQUAL]]] := by
  refine ⟨rfl, ?_⟩
  intro h
  rw [show build_diff_tree ⟨"", "", [⟨"a/b/f", DiffState.EQUAL⟩]⟩ =
      DiffTreeNode.dir "." [DiffTreeNode.dir "a" [],
        DiffTreeNode.dir "b" [DiffTreeNode.file "f" DiffState.EQUAL]] from rfl] at h
  simp at h

mutual

theorem checkEquality_eq : ∀ (t : DiffTreeNode),
    checkEquality t = (fileStates t).all (fun s => s == DiffState.EQUAL)
  | .file n s => by rw [checkEquality, fileStates]; simp [List.all]
  | .dir n cs => by rw [checkEquality, fileStates]; exact checkAll_eq cs

theorem checkAll_eq : ∀ (l : List DiffTreeNode),
    checkAll l = (fileStatesList l).all (fun s => s == DiffState.EQUAL)
  | [] => rfl
  | c :: rest => by
    rw [checkAll, fileStatesList, List.all_append, checkEquality_eq c, checkAll_eq rest]

end

theorem fileStatesList_append (xs ys : List DiffTreeNode) :
    fileStatesList (xs ++ ys) = fileStatesList xs ++ fileStatesList ys := by
  induction xs with
  | nil => rfl
  | cons c rest ih => rw [List.cons_append, fileStatesList, fileStatesList, ih, List.append_assoc]

theorem fileStatesList_map_file (fs : List (String × DiffState)) :
    fileStatesList (fs.map (fun p => DiffTreeNode.file p.1 p.2)) =
      fs.map (fun p => p.2) := by
  induction fs with
  | nil => rfl
  | cons p rest ih =>
    rw [List.map_cons, fileStatesList, fileStates, List.map_cons, ← ih]
    rfl

mutual

theorem fileStates_toTreeNode : ∀ (name : String) (n : DictNode),
    fileStates (toTreeNode name n) = dictStates n
  | name, .mk fs ds => by
    rw [toTreeNode, fileStates, fileStatesList_append, fileStatesList_map_file,
      dictStates, fileStatesList_toTreeChildren ds]

theorem fileStatesList_toTreeChildren : ∀ (ds : List (String × DictNode)),
    fileStatesList (toTreeChildren ds) = dictStatesList ds
  | [] => rfl
  | (k, v) :: rest => by
    rw [toTreeChildren, fileStatesList, dictStatesList,
      fileStates_toTreeNode k v, fileStatesList_toTreeChildren rest]

end

theorem stateCount_append (s : DiffState) (xs ys : List DiffState) :
    stateCount s (xs ++ ys) = stateCount s xs + stateCount s ys := by
  induction xs with
  | nil => simp [stateCount]
  | cons x rest ih => rw [List.cons_append, stateCount, stateCount, ih]; omega

theorem dictStatesList_append (xs ys : List (String × DictNode)) :
    dictStatesList (xs ++ ys) = dictStatesList xs ++ dictStatesList ys := by
  induction xs with
  | nil => rfl
  | cons e rest ih =>
    obtain ⟨k, v⟩ := e
    rw [List.cons_append, dictStatesList, dictStatesList, ih, List.append_assoc]

theorem dictStates_ensureDir (r : DictNode) (p : String) :
    dictStates (ensureDir r p) = dictStates r := by
  obtain ⟨fs, ds⟩ := r
  rw [ensureDir]
  cases lookupA ds p with
  | some v => rfl
  | none =>
    simp only []
    rw [dictStates, dictStates, dictStatesList_append]
    simp [dictStatesList, dictStates]

theorem dictStates_ensureFold (ks : List String) :
    ∀ (r : DictNode), dictStates (ks.foldl ensureDir r) = dictStates r := by
  induction ks with
  | nil => intro r; rfl
  | cons k rest ih =>
    intro r
    rw [List.foldl_cons, ih (ensureDir r k), dictStates_ensureDir]

theorem lookupA_append {α : Type} (ds es : List (String × α)) (p : String) :
    lookupA (ds ++ es) p =
      match lookupA ds p with
      | some v => some v
      | none => lookupA es p := by
  induction ds with
  | nil => rfl
  | cons e rest ih =>
    obtain ⟨k, v⟩ := e
    by_cases h : k = p
    · simp [lookupA, h]
    · simp [lookupA, h, ih]

theorem ensureDir_self_isSome (r : DictNode) (p : String) :
    (lookupA (ensureDir r p).dirs p).isSome = true := by
  obtain ⟨fs, ds⟩ := r
  rw [ensureDir]
  cases hl : lookupA ds p with
  | some v => simp [DictNode.dirs, hl]
  | none => simp [DictNode.dirs, lookupA_append, hl, lookupA]

theorem ensureDir_isSome_mono (r : DictNode) (p q : String)
    (h : (lookupA r.dirs q).isSome = true) :
    (lookupA (ensureDir r p).dirs q).isSome = true := by
  obtain ⟨fs, ds⟩ := r
  rw [DictNode.dirs] at h
  rw [ensureDir]
  cases hl : lookupA ds p with
  | some v => simpa [DictNode.dirs] using h
  | none =>
    cases hq : lookupA ds q with
    | none => rw [hq] at h; simp at h
    | some w => simp [DictNode.dirs, lookupA_append, hq]

theorem ensureFold_isSome_mono (ks : List String) :
    ∀ (r : DictNode) (q : String), (lookupA r.dirs q).isSome = true →
      (lookupA ((ks.foldl ensureDir r).dirs) q).isSome = true := by
  induction ks with
  | nil => intro r q h; exact h
  | cons k rest ih =>
    intro r q h
    rw [List.foldl_cons]
    exact ih (ensureDir r k) q (ensureDir_isSome_mono r k q h)

theorem ensureFold_mem (ks : List String) :
    ∀ (r : DictNode) (p : String), p ∈ ks →
      (lookupA ((ks.foldl ensureDir r).dirs) p).isSome = true := by
  induction ks with
  | nil => intro r p h; exact absurd h (by simp)
  | cons k rest ih =>
    intro r p h
    rw [List.foldl_cons]
    rcases List.mem_cons.mp h with heq | hmem
    · subst heq
      exact ensureFold_isSome_mono rest (ensureDir r p) p (ensureDir_self_isSome r p)
    · exact ih (ensureDir r k) p hmem

theorem stateCount_addLeaf (dn : DictNode) (fname : String) (st s : DiffState) :
    stateCount s (dictStates (addLeaf fname st dn)) =
      stateCount s (dictStates dn) + (if st = s then 1 else 0) := by
  obtain ⟨f2, d2⟩ := dn
  simp [addLeaf, dictStates, List.map_append, stateCount_append, stateCount]
  omega

theorem stateCount_updateA_addLeaf (ds : List (String × DictNode)) :
    ∀ (key fname : String) (st s : DiffState),
      (lookupA ds key).isSome = true →
      stateCount s (dictStatesList (updateA ds key (addLeaf fname st))) =
        stateCount s (dictStatesList ds) + (if st = s then 1 else 0) := by
  induction ds with
  | nil => intro key fname st s h; simp [lookupA] at h
  | cons e rest ih =>
    intro key fname st s h
    obtain ⟨k0, v0⟩ := e
    by_cases h0 : k0 = key
    · rw [updateA, if_pos h0, dictStatesList, dictStatesList, stateCount_append,
        stateCount_append, stateCount_addLeaf]
      omega
    · rw [lookupA, if_neg h0] at h
      rw [updateA, if_neg h0, dictStatesList, dictStatesList, stateCount_append,
        stateCount_append, ih key fname st s h]
      omega

theorem stateCount_addFileAt (r : DictNode) (key fname : String) (st s : DiffState)
    (h : (lookupA r.dirs key).isSome = true) :
    stateCount s (dictStates (addFileAt r key fname st)) =
      stateCount s (dictStates r) + (if st = s then 1 else 0) := by
  obtain ⟨fs, ds⟩ := r
  rw [DictNode.dirs] at h
  rw [addFileAt, dictStates, dictStates, stateCount_append, stateCount_append,
    stateCount_updateA_addLeaf ds key fname st s h]
  omega

theorem getLastD_mem (a : String) (l : List String) :
    (a :: l).getLastD "" ∈ a :: l := by
  induction l generalizing a with
  | nil => simp [List.getLastD]
  | cons b l' ih =>
    have : (a :: b :: l').getLastD "" = (b :: l').getLastD "" := by
      simp [List.getLastD]
    rw [this]
    exact List.mem_cons_of_mem a (ih b)

theorem stateCount_insertDiffRecord (root : DictNode) (rec : DiffRecord) (s : DiffState) :
    stateCount s (dictStates (insertDiffRecord root rec)) =
      stateCount s (dictStates root) + (if rec.result = s then 1 else 0) := by
  simp only [insertDiffRecord]
  cases hds : (pySplitSlash rec.relpath).dropLast with
  | nil =>
    obtain ⟨fs, ds⟩ := root
    simp only [dictStates, List.map_append, stateCount_append]
    simp [stateCount]
    omega
  | cons d0 drest =>
    simp only []
    rw [stateCount_addFileAt _ _ _ _ _
      (ensureFold_mem (d0 :: drest) root ((d0 :: drest).getLastD "")
        (getLastD_mem d0 drest)),
      dictStates_ensureFold]

theorem stateCount_foldInsert (recs : List DiffRecord) :
    ∀ (root : DictNode) (s : DiffState),
      stateCount s (dictStates (recs.foldl insertDiffRecord root)) =
        stateCount s (dictStates root) +
          stateCount s (recs.map (fun r => r.result)) := by
  induction recs with
  | nil => intro root s; simp [stateCount]
  | cons rec rest ih =>
    intro root s
    rw [List.foldl_cons, ih (insertDiffRecord root rec) s,
      stateCount_insertDiffRecord, List.map_cons, stateCount]
    omega

theorem all_equal_iff_counts (l : List DiffState) :
    (l.all (fun s => s == DiffState.EQUAL) = true) ↔
      (stateCount DiffState.DIFFERENT l = 0 ∧ stateCount DiffState.ONLY_LEFT l = 0 ∧
        stateCount DiffState.ONLY_RIGHT l = 0) := by
  induction l with
  | nil => simp [stateCount]
  | cons x xs ih =>
    cases x <;> simp [List.all_cons, stateCount, ih]

theorem count_eq_stateCount (s : DiffState) (l : List DiffState) :
    l.count s = stateCount s l := by
  induction l with
  | nil => rfl
  | cons x xs ih =>
    rw [List.count_cons, stateCount, ih]
    by_cases h : x = s
    · simp [h]
      omega
    · simp [h]

/-- C8: in the tree returned by `build_diff_tree`, a directory node's
derived `all_equal` is true exactly when every reachable file-node
descendant has state EQUAL; and the root's `all_equal` is true exactly
when `stats()` reports zero for DIFFERENT, ONLY_LEFT and ONLY_RIGHT. -/
theorem build_diff_tree_all_equal (ad : ArchiveDiff) :
    (∀ sub nm cs, SubtreeOf sub (build_diff_tree ad) →
      sub = DiffTreeNode.dir nm cs →
      (checkEquality sub = true ↔ ∀ s ∈ fileStates sub, s = DiffState.EQUAL)) ∧
    (checkEquality (build_diff_tree ad) = true ↔
      (ad.stats DiffState.DIFFERENT = 0 ∧ ad.stats DiffState.ONLY_LEFT = 0 ∧
        ad.stats DiffState.ONLY_RIGHT = 0)) := by
  constructor
  · intro sub nm cs _ _
    rw [checkEquality_eq sub, List.all_eq_true]
    constructor
    · intro h s hs
      have := h s hs
      exact beq_iff_eq.mp this
    · intro h s hs
      exact beq_iff_eq.mpr (h s hs)
  · rw [build_diff_tree, checkEquality_eq, fileStates_toTreeNode,
      all_equal_iff_counts]
    have hc : ∀ s, stateCount s
        (dictStates (ad.records.foldl insertDiffRecord (DictNode.mk [] []))) =
        ad.stats s := by
      intro s
      rw [stateCount_foldInsert, ArchiveDiff.stats, count_eq_stateCount]
      simp [dictStates, dictStatesList, stateCount]
    rw [hc, hc, hc]

/-- Witness for `build_diff_tree_all_equal` at a concrete diff,
instantiating the directory-node part at the root subtree. -/
theorem build_diff_tree_all_equal_witness :
    (checkEquality (build_diff_tree ⟨"", "", [⟨"x", DiffState.EQUAL⟩]⟩) = true ↔
      ∀ s ∈ fileStates (build_diff_tree ⟨"", "", [⟨"x", DiffState.EQUAL⟩]⟩),
        s = DiffState.EQUAL) ∧
    (checkEquality (build_diff_tree ⟨"", "", [⟨"x", DiffState.EQUAL⟩]⟩) = true ↔
      ((⟨"", "", [⟨"x", DiffState.EQUAL⟩]⟩ : ArchiveDiff).stats DiffState.DIFFERENT = 0 ∧
        (⟨"", "", [⟨"x", DiffState.EQUAL⟩]⟩ : ArchiveDiff).stats DiffState.ONLY_LEFT = 0 ∧
        (⟨"", "", [⟨"x", DiffState.EQUAL⟩]⟩ : ArchiveDiff).stats DiffState.ONLY_RIGHT = 0)) := by
  have h := build_diff_tree_all_equal ⟨"", "", [⟨"x", DiffState.EQUAL⟩]⟩
  refine ⟨?_, h.2⟩
  exact h.1 (build_diff_tree ⟨"", "", [⟨"x", DiffState.EQUAL⟩]⟩) "."
    [DiffTreeNode.file "x" DiffState.EQUAL]
    (SubtreeOf.refl _) rfl

theorem pyLtChars_asymm : ∀ (a b : List Char),
    pyLtChars a b = true → pyLtChars b a = false
  | [], [], h => by simp [pyLtChars] at h
  | [], _ :: _, _ => rfl
  | _ :: _, [], h => by simp [pyLtChars] at h
  | c :: cs, d :: ds, h => by
    rw [pyLtChars] at h
    rw [pyLtChars]
    by_cases hcd : c.toNat < d.toNat
    · rw [if_neg (by omega), if_pos hcd]
    · rw [if_neg hcd] at h
      by_cases hdc : d.toNat < c.toNat
      · rw [if_pos hdc] at h
        exact absurd h (by simp)
      · rw [if_neg hdc] at h
        rw [if_neg hdc, if_neg hcd]
        exact pyLtChars_asymm cs ds h

theorem pyLtChars_negtrans : ∀ (x y z : List Char),
    pyLtChars y x = false → pyLtChars z y = false → pyLtChars z x = false
  | [], y, z, _, _ => by
    cases z with
    | nil => rfl
    | cons c cs => rfl
  | _ :: _, [], _, h1, _ => by simp [pyLtChars] at h1
  | a :: as, b :: bs, z, h1, h2 => by
    cases z with
    | nil => simp [pyLtChars] at h2
    | cons c cs =>
      rw [pyLtChars] at h1 h2
      rw [pyLtChars]
      by_cases hba : b.toNat < a.toNat
      · rw [if_pos hba] at h1
        exact absurd h1 (by simp)
      · rw [if_neg hba] at h1
        by_cases hcb : c.toNat < b.toNat
        · rw [if_pos hcb] at h2
          exact absurd h2 (by simp)
        · rw [if_neg hcb] at h2
          by_cases hab : a.toNat < b.toNat
          · rw [if_pos hab] at h1
            by_cases hca : c.toNat < a.toNat
            · omega
            · rw [if_neg hca, if_pos (by omega)]
          · rw [if_neg hab] at h1
            by_cases hbc : b.toNat < c.toNat
            · rw [if_pos hbc] at h2
              rw [if_neg (by omega), if_pos (by omega)]
            · rw [if_neg hbc] at h2
              rw [if_neg (by omega), if_neg (by omega)]
              exact pyLtChars_negtrans as bs cs h1 h2

theorem pyLtString_asymm (a b : String) :
    pyLtString a b = true → pyLtString b a = false :=
  pyLtChars_asymm a.data b.data

theorem pyLtString_negtrans (x y z : String) :
    pyLtString y x = false → pyLtString z y = false → pyLtString z x = false :=
  pyLtChars_negtrans x.data y.data z.data

theorem pyLtList_asymm : ∀ (a b : List String),
    pyLtList a b = true → pyLtList b a = false
  | [], [], h => by simp [pyLtList] at h
  | [], _ :: _, _ => rfl
  | _ :: _, [], h => by simp [pyLtList] at h
  | a :: as, b :: bs, h => by
    rw [pyLtList] at h
    rw [pyLtList]
    by_cases hab : pyLtString a b = true
    · have hba : pyLtString b a = false := pyLtString_asymm a b hab
      rw [if_neg (by rw [hba]; simp), if_pos hab]
    · rw [if_neg hab] at h
      by_cases hba : pyLtString b a = true
      · rw [if_pos hba] at h
        exact absurd h (by simp)
      · rw [if_neg hba] at h
        rw [if_neg hba, if_neg hab]
        exact pyLtList_asymm as bs h

theorem pyLtList_negtrans : ∀ (x y z : List String),
    pyLtList y x = false → pyLtList z y = false → pyLtList z x = false
  | [], y, z, _, _ => by
    cases z with
    | nil => rfl
    | cons c cs => rfl
  | _ :: _, [], _, h1, _ => by simp [pyLtList] at h1
  | a :: as, b :: bs, z, h1, h2 => by
    cases z with
    | nil => simp [pyLtList] at h2
    | cons c cs =>
      rw [pyLtList] at h1 h2
      rw [pyLtList]
      by_cases hba : pyLtString b a = true
      · rw [if_pos hba] at h1
        exact absurd h1 (by simp)
      · rw [if_neg hba] at h1
        rw [Bool.not_eq_true] at hba
        by_cases hcb : pyLtString c b = true
        · rw [if_pos hcb] at h2
          exact absurd h2 (by simp)
        · rw [if_neg hcb] at h2
          rw [Bool.not_eq_true] at hcb
          have hca : pyLtString c a = false := pyLtString_negtrans a b c hba hcb
          rw [if_neg (by rw [hca]; simp)]
          by_cases hac : pyLtString a c = true
          · rw [if_pos hac]
          · rw [if_neg hac]
            rw [Bool.not_eq_true] at hac
            by_cases hab : pyLtString a b = true
            · exfalso
              have hfalse : pyLtString a b = false :=
                pyLtString_negtrans b c a hcb hac
              rw [hab] at hfalse
              exact absurd hfalse (by simp)
            · rw [if_neg hab] at h1
              by_cases hbc : pyLtString b c = true
              · exfalso
                have hfalse : pyLtString b c = false :=
                  pyLtString_negtrans c a b hac hba
                rw [hbc] at hfalse
                exact absurd hfalse (by simp)
              · rw [if_neg hbc] at h2
                exact pyLtList_negtrans as bs cs h1 h2

theorem insertSorted_perm (r : HashRecord) (l : List HashRecord) :
    List.Perm (insertSorted r l) (r :: l) := by
  induction l with
  | nil => exact List.Perm.refl _
  | cons x xs ih =>
    rw [insertSorted]
    by_cases h : pyLtList x.path_parts r.path_parts = true
    · rw [if_pos h]
      exact (ih.cons x).trans (List.Perm.swap r x xs)
    · rw [if_neg h]

theorem pySortRecords_perm (l : List HashRecord) :
    List.Perm (pySortRecords l) l := by
  induction l with
  | nil => exact List.Perm.refl _
  | cons r rest ih =>
    rw [pySortRecords]
    exact (insertSorted_perm r (pySortRecords rest)).trans (ih.cons r)

theorem insertSorted_pairwise (r : HashRecord) (l : List HashRecord)
    (h : List.Pairwise (fun a b => pyLtList b.path_parts a.path_parts = false) l) :
    List.Pairwise (fun a b => pyLtList b.path_parts a.path_parts = false)
      (insertSorted r l) := by
  induction l with
  | nil => simp [insertSorted]
  | cons x xs ih =>
    rw [List.pairwise_cons] at h
    obtain ⟨hx, hxs⟩ := h
    rw [insertSorted]
    by_cases hlt : pyLtList x.path_parts r.path_parts = true
    · rw [if_pos hlt, List.pairwise_cons]
      refine ⟨?_, ih hxs⟩
      intro z hz
      have hz' : z ∈ r :: xs := (insertSorted_perm r xs).mem_iff.mp hz
      rcases List.mem_cons.mp hz' with heq | hmem
      · subst heq
        exact pyLtList_asymm x.path_parts z.path_parts hlt
      · exact hx z hmem
    · rw [if_neg hlt, List.pairwise_cons]
      rw [Bool.not_eq_true] at hlt
      refine ⟨?_, List.pairwise_cons.mpr ⟨hx, hxs⟩⟩
      intro z hz
      rcases List.mem_cons.mp hz with heq | hmem
      · subst heq
        exact hlt
      · exact pyLtList_negtrans r.path_parts x.path_parts z.path_parts hlt (hx z hmem)

theorem pySortRecords_pairwise (l : List HashRecord) :
    List.Pairwise (fun a b => pyLtList b.path_parts a.path_parts = false)
      (pySortRecords l) := by
  induction l with
  | nil => simp [pySortRecords]
  | cons r rest ih =>
    rw [pySortRecords]
    exact insertSorted_pairwise r (pySortRecords rest) ih

/-- C10: `compute_listing_diff` sorts both caller-supplied lists in
place before merging. In the embedding the post-call state of each
argument list is `pySortRecords` of it: a permutation of the original
records (the same `HashRecord` objects, reordered), ascending by
`path_parts` (no later record is strictly below an earlier one), and
the returned diff is exactly the merge of the two sorted lists. -/
theorem compute_listing_diff_sorts_in_place (l1 l2 : List HashRecord) :
    List.Perm (pySortRecords l1) l1 ∧ List.Perm (pySortRecords l2) l2 ∧
    List.Pairwise (fun a b => pyLtList b.path_parts a.path_parts = false)
      (pySortRecords l1) ∧
    List.Pairwise (fun a b => pyLtList b.path_parts a.path_parts = false)
      (pySortRecords l2) ∧
    compute_listing_diff l1 l2 = mergeLists (pySortRecords l1) (pySortRecords l2) :=
  ⟨pySortRecords_perm l1, pySortRecords_perm l2,
    pySortRecords_pairwise l1, pySortRecords_pairwise l2, rfl⟩
